import Mathlib

/-!
Verification of the compressed sparse posting list of
`src/lib/sparse/src/index/posting_list2.rs`.

Conventions of the shallow embedding:

* `u32` / `usize` values are `Nat`; the wrap-around of an `as u32` cast is
  written `% 2 ^ 32` at the cast site.
* `f32` weights are carried as opaque 32-bit patterns (`Nat`); the code never
  computes with a weight, it only copies and serialises it bit-exactly.
* Byte buffers are `List Nat` (entries below 256).
* Fallible paths (the unsupported `upsert` branch, `load` on short input,
  the debug duplicate assertion, a debug-mode subtraction underflow) are
  `Except`/`Option` values, with `error`/`none` marking the panic.
* Loops become recursions; where structural recursion needs it, a fuel
  argument equal to the loop's iteration bound is passed explicitly, so every
  definition reduces in the kernel.

The block codec (`bitpacking::BitPacker4x`) is an external crate, not code of
this repository.  It is modelled from the spec (§4.1): per-position deltas
`d_i = id_i − prev_i − 1`, packed as `bits`-wide little-endian bit fields,
with `compressed_block_size bits = bits * B / 8` bytes per block.
-/

/-- Block length `B` (`BitPackerImpl::BLOCK_LEN` of `BitPacker4x`). -/
def BLOCK_LEN : Nat := 128

/-- `usize::MAX`, the sentinel used for a not-yet-decoded scratch block. -/
def USIZE_MAX : Nat := 2 ^ 64 - 1

/-- Little-endian base-256 digits of `n`, exactly `len` bytes. -/
def toBytes (n len : Nat) : List Nat :=
  match len, n with
  | 0, _ => []
  | len + 1, n => n % 256 :: toBytes (n / 256) len

/-- Value of a little-endian byte list. -/
def fromBytes : List Nat → Nat
  | [] => 0
  | b :: bs => b + 256 * fromBytes bs

/-- Value of a little-endian list of base-`b` digits. -/
def ofBase (b : Nat) : List Nat → Nat
  | [] => 0
  | d :: ds => d + b * ofBase b ds

/-- `u32::checked_sub(1)`. -/
def checkedSub1 (n : Nat) : Option Nat :=
  if n = 0 then none else some (n - 1)

/-- Least id admissible after the codec's `initial` argument: `initial + 1`
for `Some initial`; `None` behaves like `-1_u32` with wrapping arithmetic, so
the first delta is the first id itself. -/
def baseOf : Option Nat → Nat
  | none => 0
  | some p => p + 1

/-- Per-position deltas `d_i = id_i − prev_i − 1`; the `base` argument is
`prev + 1`, i.e. the least id still admissible at this position. -/
def deltas : Nat → List Nat → List Nat
  | _, [] => []
  | base, x :: xs => (x - base) :: deltas (x + 1) xs

/-- Inverse of `deltas`: rebuild the ids from the delta stream. -/
def undeltas : Nat → List Nat → List Nat
  | _, [] => []
  | base, d :: ds => (base + d) :: undeltas (base + d + 1) ds

/-- The ids are strictly increasing and start no lower than `base`. -/
def IncFrom : Nat → List Nat → Prop
  | _, [] => True
  | base, x :: xs => base ≤ x ∧ IncFrom (x + 1) xs

instance instDecIncFrom : (b : Nat) → (l : List Nat) → Decidable (IncFrom b l)
  | _, [] => .isTrue trivial
  | b, x :: xs =>
    have : Decidable (IncFrom (x + 1) xs) := instDecIncFrom (x + 1) xs
    inferInstanceAs (Decidable (b ≤ x ∧ IncFrom (x + 1) xs))

/-- `BitPacker4x::num_bits_strictly_sorted`: the minimal width able to hold
every delta of the block. -/
def num_bits_strictly_sorted (initial : Option Nat) (ids : List Nat) : Nat :=
  (deltas (baseOf initial) ids).foldr (fun d m => max (Nat.size d) m) 0

/-- `BitPacker4x::compressed_block_size`. -/
def compressed_block_size (bits : Nat) : Nat := bits * BLOCK_LEN / 8

/-- `BitPacker4x::compress_strictly_sorted`, modelled from the spec (§4.1):
the deltas are packed as `bits`-wide little-endian bit fields, which is the
same as reading the delta list as base-`2 ^ bits` digits of one number and
emitting its `bits * B / 8` little-endian bytes. -/
def compress_strictly_sorted (initial : Option Nat) (ids : List Nat) (bits : Nat) : List Nat :=
  toBytes (ofBase (2 ^ bits) (deltas (baseOf initial) ids)) (compressed_block_size bits)

/-- `BitPacker4x::decompress_strictly_sorted` (spec §4.1): read `BLOCK_LEN`
`bits`-wide little-endian fields and undo the delta encoding. -/
def decompress_strictly_sorted (initial : Option Nat) (bytes : List Nat) (bits : Nat) :
    List Nat :=
  undeltas (baseOf initial)
    ((List.range BLOCK_LEN).map fun i => fromBytes bytes / (2 ^ bits) ^ i % 2 ^ bits)

theorem toBytes_length (n len : Nat) : (toBytes n len).length = len := by
  induction len generalizing n with
  | zero => rfl
  | succ len ih => simp [toBytes, ih]

theorem fromBytes_toBytes (len n : Nat) (h : n < 256 ^ len) :
    fromBytes (toBytes n len) = n := by
  induction len generalizing n with
  | zero =>
    have : n = 0 := by simpa using h
    simp [this, toBytes, fromBytes]
  | succ len ih =>
    have hdiv : n / 256 < 256 ^ len := by
      rw [Nat.div_lt_iff_lt_mul (by norm_num)]
      calc n < 256 ^ (len + 1) := h
        _ = 256 ^ len * 256 := by rw [pow_succ]
    simp only [toBytes, fromBytes, ih _ hdiv]
    omega

theorem ofBase_lt (b : Nat) (ds : List Nat) (hb : 0 < b) (h : ∀ d ∈ ds, d < b) :
    ofBase b ds < b ^ ds.length := by
  induction ds with
  | nil => simpa [ofBase] using hb
  | cons d tl ih =>
    have hd : d < b := h d (by simp)
    have htl : ofBase b tl < b ^ tl.length := ih (fun x hx => h x (by simp [hx]))
    have h1 : b * (ofBase b tl + 1) ≤ b * b ^ tl.length := Nat.mul_le_mul_left b htl
    calc (ofBase b (d :: tl)) = d + b * ofBase b tl := rfl
      _ < b * (ofBase b tl + 1) := by
          have h2 : b * (ofBase b tl + 1) = b * ofBase b tl + b := by ring
          omega
      _ ≤ b * b ^ tl.length := h1
      _ = b ^ (d :: tl).length := by rw [List.length_cons, pow_succ, Nat.mul_comm]

theorem extract_ofBase (b : Nat) (ds : List Nat) (h : ∀ d ∈ ds, d < b) :
    (List.range ds.length).map (fun i => ofBase b ds / b ^ i % b) = ds := by
  induction ds with
  | nil => simp
  | cons d tl ih =>
    have hd : d < b := h d (by simp)
    have hb : 0 < b := lt_of_le_of_lt (Nat.zero_le d) hd
    simp only [List.length_cons, List.range_succ_eq_map, List.map_cons, List.map_map]
    congr 1
    · simp only [pow_zero, Nat.div_one]
      show (d + b * ofBase b tl) % b = d
      rw [Nat.add_mul_mod_self_left, Nat.mod_eq_of_lt hd]
    · have step : ∀ i : Nat,
          ofBase b (d :: tl) / b ^ (i + 1) % b = ofBase b tl / b ^ i % b := by
        intro i
        show (d + b * ofBase b tl) / b ^ (i + 1) % b = _
        rw [pow_succ', ← Nat.div_div_eq_div_mul, Nat.add_mul_div_left _ _ hb,
          Nat.div_eq_of_lt hd, Nat.zero_add]
      calc (List.range tl.length).map ((fun i => ofBase b (d :: tl) / b ^ i % b) ∘ Nat.succ)
          = (List.range tl.length).map (fun i => ofBase b tl / b ^ i % b) := by
            apply List.map_congr_left
            intro i _
            exact step i
        _ = tl := ih (fun x hx => h x (by simp [hx]))

theorem deltas_length (base : Nat) (ids : List Nat) :
    (deltas base ids).length = ids.length := by
  induction ids generalizing base with
  | nil => rfl
  | cons x xs ih => simp [deltas, ih]

theorem undeltas_length (base : Nat) (ds : List Nat) :
    (undeltas base ds).length = ds.length := by
  induction ds generalizing base with
  | nil => rfl
  | cons d tl ih => simp [undeltas, ih]

theorem undeltas_deltas (base : Nat) (ids : List Nat) (h : IncFrom base ids) :
    undeltas base (deltas base ids) = ids := by
  induction ids generalizing base with
  | nil => rfl
  | cons x xs ih =>
    obtain ⟨hle, hinc⟩ := h
    simp only [deltas, undeltas]
    have hx : base + (x - base) = x := by omega
    rw [hx, ih (x + 1) hinc]

theorem size_le_foldr_max (ds : List Nat) (d : Nat) (hd : d ∈ ds) :
    Nat.size d ≤ ds.foldr (fun d m => max (Nat.size d) m) 0 := by
  induction ds with
  | nil => simp at hd
  | cons a tl ih =>
    rcases List.mem_cons.mp hd with h | h
    · subst h
      exact le_max_left _ _
    · exact le_trans (ih h) (le_max_right _ _)

theorem deltas_lt_pow_num_bits (initial : Option Nat) (ids : List Nat) :
    ∀ d ∈ deltas (baseOf initial) ids, d < 2 ^ num_bits_strictly_sorted initial ids := by
  intro d hd
  exact Nat.size_le.mp (size_le_foldr_max _ d hd)

theorem deltas_le_ids (base : Nat) (ids : List Nat) :
    ∀ d ∈ deltas base ids, ∃ x ∈ ids, d ≤ x := by
  induction ids generalizing base with
  | nil => simp [deltas]
  | cons x xs ih =>
    intro d hd
    rcases List.mem_cons.mp hd with h | h
    · exact ⟨x, by simp, by omega⟩
    · obtain ⟨y, hy, hle⟩ := ih (x + 1) d h
      exact ⟨y, by simp [hy], hle⟩

/-- The round trip of the block codec on a full strictly increasing block. -/
theorem decompress_compress (initial : Option Nat) (ids : List Nat)
    (hinc : IncFrom (baseOf initial) ids) (hlen : ids.length = BLOCK_LEN) :
    decompress_strictly_sorted initial
      (compress_strictly_sorted initial ids (num_bits_strictly_sorted initial ids))
      (num_bits_strictly_sorted initial ids) = ids := by
  set bits := num_bits_strictly_sorted initial ids with hbits
  set ds := deltas (baseOf initial) ids with hds
  have hdlt : ∀ d ∈ ds, d < 2 ^ bits := deltas_lt_pow_num_bits initial ids
  have hdslen : ds.length = BLOCK_LEN := by rw [hds, deltas_length, hlen]
  have hb : 0 < 2 ^ bits := Nat.pos_pow_of_pos _ (by norm_num)
  have h2 : ((2 : Nat) ^ bits) ^ BLOCK_LEN = 256 ^ compressed_block_size bits := by
    have hsz : compressed_block_size bits = bits * 16 := by
      simp only [compressed_block_size, BLOCK_LEN]
      omega
    rw [hsz, ← pow_mul]
    have h256 : (256 : Nat) = 2 ^ 8 := by norm_num
    rw [h256, ← pow_mul]
    congr 1
    simp only [BLOCK_LEN]
    ring
  have hN : ofBase (2 ^ bits) ds < 256 ^ compressed_block_size bits := by
    have h1 : ofBase (2 ^ bits) ds < (2 ^ bits) ^ ds.length := ofBase_lt _ _ hb hdlt
    rw [hdslen, h2] at h1
    exact h1
  unfold decompress_strictly_sorted compress_strictly_sorted
  rw [← hds, fromBytes_toBytes _ _ hN]
  have hmap : (List.range BLOCK_LEN).map
      (fun i => ofBase (2 ^ bits) ds / (2 ^ bits) ^ i % 2 ^ bits) = ds := by
    rw [← hdslen]
    exact extract_ofBase _ _ hdlt
  rw [hmap, hds, undeltas_deltas _ _ hinc]

/-! ## Data model (`PostingList` and friends) -/

/-- `PostingElement` (from `posting_list.rs`): id, weight, and the advisory
`max_next_weight`.  Weights are opaque 32-bit patterns. -/
structure PostingElement where
  record_id : Nat
  weight : Nat
  max_next_weight : Nat
deriving DecidableEq

/-- `PostingElement0`: the stored pair (id, weight). -/
structure PostingElement0 where
  record_id : Nat
  weight : Nat
deriving DecidableEq

/-- `CompressedPostingChunk`: block header.  `weights` has length `BLOCK_LEN`
for every chunk the code builds. -/
structure CompressedPostingChunk where
  initial : Nat
  offset : Nat
  weights : List Nat
deriving DecidableEq

/-- The posting list: compressed id bytes, block headers, uncompressed tail,
and the cached copy of the last element. -/
structure PostingList where
  id_data : List Nat
  chunks : List CompressedPostingChunk
  remainders : List PostingElement0
  last : Option PostingElement
deriving DecidableEq

/-- `PostingList::default()`. -/
def PostingList.default : PostingList := ⟨[], [], [], none⟩

/-- `PostingList::len`. -/
def PostingList.len (l : PostingList) : Nat :=
  l.chunks.length * BLOCK_LEN + l.remainders.length

/-- Chunk lookup; the Rust index operation is only reached in bounds. -/
def chunkAt (chunks : List CompressedPostingChunk) (i : Nat) : CompressedPostingChunk :=
  chunks.getD i ⟨0, 0, []⟩

/-- `PostingList::get_chunk_size` (the `assert!` only restates that callers
pass an in-bounds index). -/
def get_chunk_size (chunks : List CompressedPostingChunk) (data : List Nat)
    (chunk_index : Nat) : Nat :=
  if chunk_index + 1 < chunks.length then
    (chunkAt chunks (chunk_index + 1)).offset - (chunkAt chunks chunk_index).offset
  else data.length - (chunkAt chunks chunk_index).offset

/-- `PostingList::decompress_chunk`: slice `id_data` at the chunk's window,
recover the bit width from the stored size, and decompress. -/
def PostingList.decompress_chunk (l : PostingList) (chunk_index : Nat) : List Nat :=
  let chunk := chunkAt l.chunks chunk_index
  let chunk_size := get_chunk_size l.chunks l.id_data chunk_index
  decompress_strictly_sorted (checkedSub1 chunk.initial)
    ((l.id_data.drop chunk.offset).take chunk_size) (chunk_size * 8 / BLOCK_LEN)

/-- Write `bytes` into `buf` starting at `off` (the in-place slice write
`buf[off..off + bytes.len()].copy_from_slice(bytes)`). -/
def overwriteAt (buf : List Nat) (off : Nat) (bytes : List Nat) : List Nat :=
  buf.take off ++ bytes ++ buf.drop (off + bytes.length)

/-- `PostingList::upsert`, appending branch: push onto `remainders`, update
`last`, and when the remainder count reaches `BLOCK_LEN` emit a compressed
block (the `resize` extends `id_data` by the compressed size and the codec
writes at `offset`). -/
def upsertAppend (l : PostingList) (element : PostingElement) : PostingList :=
  let l' : PostingList :=
    { l with
      last := some element
      remainders := l.remainders ++ [⟨element.record_id, element.weight⟩] }
  if l'.remainders.length = BLOCK_LEN then
    let chunk : CompressedPostingChunk :=
      { initial := (l'.remainders.headD ⟨0, 0⟩).record_id
        offset := l'.id_data.length % 2 ^ 32
        weights := l'.remainders.map (·.weight) }
    let this_chunk := l'.remainders.map (·.record_id)
    let chunk_bits := num_bits_strictly_sorted (checkedSub1 chunk.initial) this_chunk
    { l' with
      id_data :=
        overwriteAt (l'.id_data ++ List.replicate (compressed_block_size chunk_bits) 0)
          chunk.offset
          (compress_strictly_sorted (checkedSub1 chunk.initial) this_chunk chunk_bits)
      chunks := l'.chunks ++ [chunk]
      remainders := [] }
  else l'

/-- `PostingList::upsert`.  The non-appending branch hits
`unimplemented!("Update is not implemented")` before touching any field;
`Except.error ()` models that panic. -/
def PostingList.upsert (l : PostingList) (element : PostingElement) :
    Except Unit PostingList :=
  match l.last with
  | none => Except.ok (upsertAppend l element)
  | some last =>
    if last.record_id < element.record_id then Except.ok (upsertAppend l element)
    else Except.error ()

/-- Upsert a whole sequence, stopping at the first rejected element. -/
def upsertAll (l : PostingList) : List PostingElement → Except Unit PostingList
  | [] => Except.ok l
  | e :: es =>
    match l.upsert e with
    | Except.ok l' => upsertAll l' es
    | Except.error u => Except.error u

/-! ## `PostingBuilder` -/

/-- Insert into a list sorted by `record_id` (helper of the sort model). -/
def insertById (e : PostingElement0) : List PostingElement0 → List PostingElement0
  | [] => [e]
  | x :: xs => if e.record_id ≤ x.record_id then e :: x :: xs else x :: insertById e xs

/-- Model of `sort_unstable_by_key(|e| e.record_id)` (insertion sort).  For the
inputs of interest the key order determines the result: with pairwise distinct
ids every sort by id returns the same list, and all sorts preserve length. -/
def sortById : List PostingElement0 → List PostingElement0
  | [] => []
  | x :: xs => insertById x (sortById xs)

/-- First pass of `PostingBuilder::build` — the loop over
`elements.chunks(BLOCK_LEN)`: a full group pushes a header (offset = the
`data_size` accumulated so far, cast `as u32`) and grows `data_size`; the
(necessarily final) partial group extends `remainders`.  `fuel` bounds the
iteration count; `elements.length` always suffices. -/
def buildPass1 : Nat → List PostingElement0 → List CompressedPostingChunk → Nat →
    List PostingElement0 → List CompressedPostingChunk × Nat × List PostingElement0
  | 0, _, chunks, data_size, remainders => (chunks, data_size, remainders)
  | fuel + 1, elements, chunks, data_size, remainders =>
    if elements.isEmpty then (chunks, data_size, remainders)
    else
      let chunk := elements.take BLOCK_LEN
      if chunk.length = BLOCK_LEN then
        let ids := chunk.map (·.record_id)
        let initial := ids.headD 0
        let chunk_bits := num_bits_strictly_sorted (checkedSub1 initial) ids
        let chunk_size := compressed_block_size chunk_bits
        buildPass1 fuel (elements.drop BLOCK_LEN)
          (chunks ++ [⟨initial, data_size % 2 ^ 32, chunk.map (·.weight)⟩])
          (data_size + chunk_size) remainders
      else (chunks, data_size, remainders ++ chunk)

/-- Second pass of `PostingBuilder::build` — the loop over
`elements.chunks_exact(BLOCK_LEN)`: recompute each block's bit width from its
stored window size and write its encoding at its offset into the zeroed
buffer. -/
def buildPass2 : Nat → List PostingElement0 → Nat → List CompressedPostingChunk →
    List Nat → List Nat
  | 0, _, _, _, id_data => id_data
  | fuel + 1, elements, chunk_index, chunks, id_data =>
    if BLOCK_LEN ≤ elements.length then
      let this_chunk := (elements.take BLOCK_LEN).map (·.record_id)
      let chunk := chunkAt chunks chunk_index
      let chunk_size := get_chunk_size chunks id_data chunk_index
      let chunk_bits := chunk_size * 8 / BLOCK_LEN
      buildPass2 fuel (elements.drop BLOCK_LEN) (chunk_index + 1) chunks
        (overwriteAt id_data chunk.offset
          (compress_strictly_sorted (checkedSub1 chunk.initial) this_chunk chunk_bits))
    else id_data

/-- `PostingBuilder::build` after the sort: both passes plus the cached last
element. -/
def buildSorted (elements : List PostingElement0) : PostingList :=
  let p1 := buildPass1 elements.length elements [] 0 []
  { id_data := buildPass2 elements.length elements 0 p1.1 (List.replicate p1.2.1 0)
    chunks := p1.1
    remainders := p1.2.2
    last := elements.getLast?.map fun e => ⟨e.record_id, e.weight, e.weight⟩ }

/-- `PostingBuilder::build` (release semantics: the duplicate check is
`#[cfg(debug_assertions)]` only). -/
def PostingBuilder.build (elements : List PostingElement0) : PostingList :=
  buildSorted (sortById elements)

/-- `PostingBuilder::build` compiled with `debug_assertions`: `none` models
the `panic!("Duplicate id …")` raised when `duplicates_by(record_id)` finds a
duplicate. -/
def PostingBuilder.buildChecked (elements : List PostingElement0) : Option PostingList :=
  if ((sortById elements).map (·.record_id)).Nodup then
    some (PostingBuilder.build elements)
  else none

/-- `PostingList::from(records)`: builder drain. -/
def PostingList.ofRecords (records : List (Nat × Nat)) : PostingList :=
  PostingBuilder.build (records.map fun r => ⟨r.1, r.2⟩)

/-- `PostingList::new_one`. -/
def PostingList.new_one (record_id weight : Nat) : PostingList :=
  PostingBuilder.build [⟨record_id, weight⟩]

/-! ## Serialization (`save` / `load`) -/

/-- One `u32`/`f32` written with `to_ne_bytes` (little-endian on this target;
the spec mandates little-endian on disk).  Casting a `usize` length `as u32`
wraps, hence the `% 2 ^ 32`. -/
def u32le (n : Nat) : List Nat := toBytes (n % 2 ^ 32) 4

/-- `PostingList::save`: header of three `u32`s, then the id bytes, the
headers (initial, offset, `BLOCK_LEN` weights each), then the remainders. -/
def PostingList.save (l : PostingList) : List Nat :=
  u32le l.id_data.length ++ u32le l.chunks.length ++ u32le l.remainders.length ++
    l.id_data ++
    (l.chunks.flatMap fun chunk =>
      u32le chunk.initial ++ u32le chunk.offset ++ chunk.weights.flatMap u32le) ++
    l.remainders.flatMap fun e => u32le e.record_id ++ u32le e.weight

/-- `read_exact` into a `k`-byte buffer: `none` is the short-read error. -/
def readBytes (k : Nat) (bs : List Nat) : Option (List Nat × List Nat) :=
  if k ≤ bs.length then some (bs.take k, bs.drop k) else none

/-- Read one little-endian `u32`/`f32`. -/
def readU32 (bs : List Nat) : Option (Nat × List Nat) := do
  let (b, rest) ← readBytes 4 bs
  some (fromBytes b, rest)

/-- Read `k` weights, one `from_ne_bytes` at a time. -/
def readWeights : Nat → List Nat → Option (List Nat × List Nat)
  | 0, bs => some ([], bs)
  | k + 1, bs => do
    let (w, bs) ← readU32 bs
    let (ws, bs) ← readWeights k bs
    some (w :: ws, bs)

/-- Read `k` chunk headers. -/
def readChunks : Nat → List Nat → Option (List CompressedPostingChunk × List Nat)
  | 0, bs => some ([], bs)
  | k + 1, bs => do
    let (initial, bs) ← readU32 bs
    let (offset, bs) ← readU32 bs
    let (weights, bs) ← readWeights BLOCK_LEN bs
    let (rest, bs) ← readChunks k bs
    some (⟨initial, offset, weights⟩ :: rest, bs)

/-- Read `k` remainder entries. -/
def readRemainders : Nat → List Nat → Option (List PostingElement0 × List Nat)
  | 0, bs => some ([], bs)
  | k + 1, bs => do
    let (record_id, bs) ← readU32 bs
    let (weight, bs) ← readU32 bs
    let (rest, bs) ← readRemainders k bs
    some (⟨record_id, weight⟩ :: rest, bs)

/-- `PostingList::load`: parse header and body, then reconstruct the cached
last element — from the final remainder if any, else by decoding only the
terminal block, else absent. -/
def PostingList.load (bs : List Nat) : Option PostingList := do
  let (id_data_len, bs) ← readU32 bs
  let (chunks_len, bs) ← readU32 bs
  let (remainders_len, bs) ← readU32 bs
  let (id_data, bs) ← readBytes id_data_len bs
  let (chunks, bs) ← readChunks chunks_len bs
  let (remainders, _) ← readRemainders remainders_len bs
  let last : Option PostingElement :=
    match remainders.getLast? with
    | some e => some ⟨e.record_id, e.weight, e.weight⟩
    | none =>
      match chunks.getLast? with
      | some chunk =>
        let chunk_size := get_chunk_size chunks id_data (chunks.length - 1)
        let decompressed := decompress_strictly_sorted (checkedSub1 chunk.initial)
          ((id_data.drop chunk.offset).take chunk_size) (chunk_size * 8 / BLOCK_LEN)
        some ⟨decompressed.getD (BLOCK_LEN - 1) 0,
          chunk.weights.getD (BLOCK_LEN - 1) 0,
          chunk.weights.getD (BLOCK_LEN - 1) 0⟩
      | none => none
  some ⟨id_data, chunks, remainders, last⟩

/-! ## `PostingListIterator` -/

/-- `ControlFlow<R>` of the visitor. -/
inductive CFlow (R : Type) where
  | cont : CFlow R
  | brk : R → CFlow R

/-- `PostingListIterator`: the borrowed list, the scratch block, the current
block index, the intra-block cursor (`usize::MAX` means nothing decoded), and
the remainder cursor. -/
structure PostingListIterator where
  list : PostingList
  decompressed_chunk : List Nat
  decompressed_chunk_idx : Nat
  decompressed_chunk_start_index : Nat
  lalala : Nat
deriving DecidableEq

/-- `PostingList::iter`. -/
def PostingList.iter (l : PostingList) : PostingListIterator :=
  { list := l
    decompressed_chunk := List.replicate BLOCK_LEN 0
    decompressed_chunk_idx := 0
    decompressed_chunk_start_index := USIZE_MAX
    lalala := 0 }

/-- Feed elements to the visitor one at a time, threading the visitor's own
state `s` (the `FnMut` closure state), until it breaks or the list ends.
Returns how many elements the visitor accepted (i.e. how far the cursor
advanced — the element broken on is not consumed), the final closure state,
and the break value if any. -/
def visitFrom {σ R : Type} (f : σ → PostingElement → σ × CFlow R) (s : σ) :
    List PostingElement → Nat × σ × Option R
  | [] => (0, s, none)
  | e :: rest =>
    match f s e with
    | (s', CFlow.brk r) => (0, s', some r)
    | (s', CFlow.cont) =>
      let v := visitFrom f s' rest
      (v.1 + 1, v.2)

/-- Element yielded from position `i` of a decoded block (`max_next_weight`
is emitted as the element's own weight, the `// TODO` in the source). -/
def mkElem (id w : Nat) : PostingElement := ⟨id, w, w⟩

/-- Element yielded from a remainder entry. -/
def mkRemElem (e : PostingElement0) : PostingElement := ⟨e.record_id, e.weight, e.weight⟩

/-- Phase 2 of `try_for_each` (the `while self.decompressed_chunk_idx <
chunks.len()` loop): decompress each block in turn and visit it, resetting the
intra-block cursor to 0 and bumping it per accepted element.  Arguments after
the fuel: current block index, cursor, scratch, closure state.  `fuel` bounds
the remaining loop iterations; `chunks.length` always suffices. -/
def tfePhase2 {σ R : Type} (l : PostingList) (f : σ → PostingElement → σ × CFlow R) :
    Nat → Nat → Nat → List Nat → σ → Nat × Nat × List Nat × σ × Option R
  | 0, idx, start, scratch, s => (idx, start, scratch, s, none)
  | fuel + 1, idx, start, scratch, s =>
    if idx < l.chunks.length then
      let scratch' := l.decompress_chunk idx
      let v := visitFrom f s (List.zipWith mkElem scratch' (chunkAt l.chunks idx).weights)
      match v.2.2 with
      | some r => (idx, v.1, scratch', v.2.1, some r)
      | none => tfePhase2 l f fuel (idx + 1) v.1 scratch' v.2.1
    else (idx, start, scratch, s, none)

/-- Phases 1 and 2 of `try_for_each` (guarded by
`decompressed_chunk_idx < chunks.len()`): finish the already-decoded scratch
block from the current cursor, then scan the remaining blocks. -/
def tfeChunks {σ R : Type} (it : PostingListIterator)
    (f : σ → PostingElement → σ × CFlow R) (s : σ) :
    PostingListIterator × σ × Option R :=
  if it.decompressed_chunk_idx < it.list.chunks.length then
    let p1 : PostingListIterator × σ × Option R :=
      if it.decompressed_chunk_start_index < BLOCK_LEN then
        let ws := (chunkAt it.list.chunks it.decompressed_chunk_idx).weights
        let v := visitFrom f s
          (List.zipWith mkElem (it.decompressed_chunk.drop it.decompressed_chunk_start_index)
            (ws.drop it.decompressed_chunk_start_index))
        match v.2.2 with
        | some r =>
          ({ it with decompressed_chunk_start_index :=
              it.decompressed_chunk_start_index + v.1 }, v.2.1, some r)
        | none =>
          ({ it with
              decompressed_chunk_start_index := it.decompressed_chunk_start_index + v.1
              decompressed_chunk_idx := it.decompressed_chunk_idx + 1 }, v.2.1, none)
      else (it, s, none)
    match p1.2.2 with
    | some r => (p1.1, p1.2.1, some r)
    | none =>
      let p2 := tfePhase2 it.list f it.list.chunks.length p1.1.decompressed_chunk_idx
        p1.1.decompressed_chunk_start_index p1.1.decompressed_chunk p1.2.1
      ({ p1.1 with
          decompressed_chunk_idx := p2.1
          decompressed_chunk_start_index := p2.2.1
          decompressed_chunk := p2.2.2.1 }, p2.2.2.2.1, p2.2.2.2.2)
  else (it, s, none)

/-- `PostingListIterator::try_for_each`: blocks first (phases 1 and 2), then
the remainder tail from the `lalala` cursor (phase 3). -/
def tryForEach {σ R : Type} (it : PostingListIterator)
    (f : σ → PostingElement → σ × CFlow R) (s : σ) :
    PostingListIterator × σ × Option R :=
  let p12 := tfeChunks it f s
  match p12.2.2 with
  | some r => (p12.1, p12.2.1, some r)
  | none =>
    let it1 := p12.1
    let v := visitFrom f p12.2.1 ((it1.list.remainders.drop it1.lalala).map mkRemElem)
    ({ it1 with lalala := it1.lalala + v.1 }, v.2.1, v.2.2)

/-- `PostingListIterator::peek`: break on the first yielded element. -/
def PostingListIterator.peek (it : PostingListIterator) :
    PostingListIterator × Option PostingElement :=
  let r := tryForEach it (fun _ e => ((), CFlow.brk e)) ()
  (r.1, r.2.2)

/-- `PostingListIterator::next`: record the first element, break on the
second. -/
def PostingListIterator.next (it : PostingListIterator) :
    PostingListIterator × Option PostingElement :=
  let r := tryForEach it
    (fun s e =>
      match s with
      | (true, _) => ((false, some e), CFlow.cont)
      | (false, res) => ((false, res), CFlow.brk ()))
    ((true, none) : Bool × Option PostingElement)
  (r.1, r.2.1.2)

/-- `PostingListIterator::last`. -/
def PostingListIterator.last (it : PostingListIterator) : Option PostingElement :=
  it.list.last

/-- `PostingListIterator::len_to_end`: `total - passed` on `usize`; `none`
models the debug-mode panic when the subtraction underflows. -/
def PostingListIterator.len_to_end (it : PostingListIterator) : Option Nat :=
  let passed := it.decompressed_chunk_idx * BLOCK_LEN +
    (if it.decompressed_chunk_start_index < BLOCK_LEN
      then it.decompressed_chunk_start_index else 0) +
    it.lalala
  let total := it.list.len
  if passed ≤ total then some (total - passed) else none

/-- `PostingListIterator::skip_to`, as the source's loop: `peek`, compare,
`next` on smaller ids.  Each `next` consumes one element, so the number of
pending elements plus one bounds the iterations; `fuel` carries that bound. -/
def skipToFuel : Nat → PostingListIterator → Nat →
    PostingListIterator × Option PostingElement
  | 0, it, _ => (it, none)
  | fuel + 1, it, id =>
    match it.peek with
    | (it', none) => (it', none)
    | (it', some e) =>
      if e.record_id = id then (it', some e)
      else if id < e.record_id then (it', none)
      else skipToFuel fuel it'.next.1 id

/-- The elements still ahead of the cursor, in yield order: the rest of the
current scratch block (when one is decoded), the blocks after it, then the
remainder tail.  This is the sequence `try_for_each` feeds to its visitor. -/
def remainingChunkPart (it : PostingListIterator) : List PostingElement :=
  if it.decompressed_chunk_idx < it.list.chunks.length then
    (if it.decompressed_chunk_start_index < BLOCK_LEN then
      List.zipWith mkElem (it.decompressed_chunk.drop it.decompressed_chunk_start_index)
        ((chunkAt it.list.chunks it.decompressed_chunk_idx).weights.drop
          it.decompressed_chunk_start_index)
    else []) ++
    (List.range' (it.decompressed_chunk_idx +
        (if it.decompressed_chunk_start_index < BLOCK_LEN then 1 else 0))
      (it.list.chunks.length - (it.decompressed_chunk_idx +
        (if it.decompressed_chunk_start_index < BLOCK_LEN then 1 else 0)))).flatMap
      fun i => List.zipWith mkElem (it.list.decompress_chunk i) (chunkAt it.list.chunks i).weights
  else []

def remaining (it : PostingListIterator) : List PostingElement :=
  remainingChunkPart it ++ (it.list.remainders.drop it.lalala).map mkRemElem

/-- `PostingListIterator::skip_to` with its fuel instantiated. -/
def PostingListIterator.skip_to (it : PostingListIterator) (id : Nat) :
    PostingListIterator × Option PostingElement :=
  skipToFuel ((remaining it).length + 1) it id

/-- `PostingListIterator::skip_to_end`. -/
def PostingListIterator.skip_to_end (it : PostingListIterator) : PostingListIterator :=
  { it with decompressed_chunk_idx := it.list.chunks.length + it.list.remainders.length }

/-- Drain the iterator, collecting every yielded element (the visitor never
breaks); this is how `collect()`/`to_vec()` consume the iterator. -/
def PostingListIterator.collect (it : PostingListIterator) :
    PostingListIterator × List PostingElement :=
  let r := tryForEach it (fun acc e => (acc ++ [e], (CFlow.cont : CFlow Unit)))
    ([] : List PostingElement)
  (r.1, r.2.1)

/-- `PostingList::to_vec`. -/
def PostingList.to_vec (l : PostingList) : List PostingElement :=
  l.iter.collect.2

/-! ## Builder normal form -/

/-- The `i`-th group of `BLOCK_LEN` elements of the (sorted) input. -/
def groupAt (E : List PostingElement0) (i : Nat) : List PostingElement0 :=
  (E.drop (BLOCK_LEN * i)).take BLOCK_LEN

def groupIds (E : List PostingElement0) (i : Nat) : List Nat :=
  (groupAt E i).map (·.record_id)

def bitsAt (E : List PostingElement0) (i : Nat) : Nat :=
  num_bits_strictly_sorted (checkedSub1 ((groupIds E i).headD 0)) (groupIds E i)

def encAt (E : List PostingElement0) (i : Nat) : List Nat :=
  compress_strictly_sorted (checkedSub1 ((groupIds E i).headD 0)) (groupIds E i) (bitsAt E i)

def sizeAt (E : List PostingElement0) (i : Nat) : Nat := compressed_block_size (bitsAt E i)

def sumSizes (E : List PostingElement0) (i : Nat) : Nat :=
  ((List.range i).map (sizeAt E)).sum

/-- Number of full blocks. -/
def numFull (E : List PostingElement0) : Nat := E.length / BLOCK_LEN

/-- Normal form of the `i`-th chunk header produced by the builder. -/
def chunkNF (E : List PostingElement0) (off : Nat) (i : Nat) : CompressedPostingChunk :=
  ⟨(groupIds E i).headD 0, (off + sumSizes E i) % 2 ^ 32, (groupAt E i).map (·.weight)⟩

theorem groupAt_zero (E : List PostingElement0) : groupAt E 0 = E.take BLOCK_LEN := by
  simp [groupAt]

theorem groupAt_succ (E : List PostingElement0) (i : Nat) :
    groupAt E (i + 1) = groupAt (E.drop BLOCK_LEN) i := by
  simp only [groupAt, List.drop_drop]
  congr 2
  ring

theorem groupIds_succ (E : List PostingElement0) (i : Nat) :
    groupIds E (i + 1) = groupIds (E.drop BLOCK_LEN) i := by
  simp [groupIds, groupAt_succ]

theorem bitsAt_succ (E : List PostingElement0) (i : Nat) :
    bitsAt E (i + 1) = bitsAt (E.drop BLOCK_LEN) i := by
  simp [bitsAt, groupIds_succ]

theorem sizeAt_succ (E : List PostingElement0) (i : Nat) :
    sizeAt E (i + 1) = sizeAt (E.drop BLOCK_LEN) i := by
  simp [sizeAt, bitsAt_succ]

theorem encAt_succ (E : List PostingElement0) (i : Nat) :
    encAt E (i + 1) = encAt (E.drop BLOCK_LEN) i := by
  simp [encAt, groupIds_succ, bitsAt_succ]

theorem sumSizes_zero (E : List PostingElement0) : sumSizes E 0 = 0 := rfl

theorem sumSizes_succ_shift (E : List PostingElement0) (i : Nat) :
    sumSizes E (i + 1) = sizeAt E 0 + sumSizes (E.drop BLOCK_LEN) i := by
  simp only [sumSizes, List.range_succ_eq_map, List.map_cons, List.map_map, List.sum_cons]
  congr 1
  have hmap : List.map (sizeAt E ∘ Nat.succ) (List.range i) =
      List.map (sizeAt (List.drop BLOCK_LEN E)) (List.range i) := by
    apply List.map_congr_left
    intro j _
    simp only [Function.comp_apply]
    exact sizeAt_succ E j
  rw [hmap]

theorem numFull_eq_zero (E : List PostingElement0) (h : E.length < BLOCK_LEN) :
    numFull E = 0 := Nat.div_eq_of_lt h

theorem numFull_drop (E : List PostingElement0) (h : BLOCK_LEN ≤ E.length) :
    numFull E = numFull (E.drop BLOCK_LEN) + 1 := by
  simp only [numFull, List.length_drop, BLOCK_LEN] at h ⊢
  omega

theorem chunkNF_succ (E : List PostingElement0) (off : Nat) (i : Nat) :
    chunkNF E off (i + 1) = chunkNF (E.drop BLOCK_LEN) (off + sizeAt E 0) i := by
  simp only [chunkNF, groupIds_succ, groupAt_succ, sumSizes_succ_shift]
  congr 2
  omega

/-- What the first pass of the builder computes: the accumulated headers (with
offsets `off + partial size sums`, each cast `as u32`), the total compressed
size, and the trailing partial group. -/
theorem buildPass1_spec : ∀ (fuel : Nat) (E : List PostingElement0)
    (chunks0 : List CompressedPostingChunk) (ds0 : Nat) (rem0 : List PostingElement0),
    E.length ≤ fuel →
    buildPass1 fuel E chunks0 ds0 rem0 =
      (chunks0 ++ (List.range (numFull E)).map (chunkNF E ds0),
        ds0 + sumSizes E (numFull E),
        rem0 ++ E.drop (BLOCK_LEN * numFull E)) := by
  intro fuel
  induction fuel with
  | zero =>
    intro E chunks0 ds0 rem0 hf
    have hE : E = [] := List.length_eq_zero.mp (Nat.le_zero.mp hf)
    subst hE
    simp [buildPass1, numFull, sumSizes]
  | succ fuel ih =>
    intro E chunks0 ds0 rem0 hf
    by_cases hE : E = []
    · subst hE
      simp [buildPass1, numFull, sumSizes]
    · have hne : E.isEmpty = false := by simpa [List.isEmpty_iff] using hE
      by_cases h128 : BLOCK_LEN ≤ E.length
      · have htk : (E.take BLOCK_LEN).length = BLOCK_LEN := by
          simp [List.length_take]
          omega
        have hdrop : (E.drop BLOCK_LEN).length ≤ fuel := by
          simp only [List.length_drop]
          have : 0 < BLOCK_LEN := by norm_num [BLOCK_LEN]
          omega
        simp only [buildPass1, hne, Bool.false_eq_true, if_false, htk, if_true]
        rw [ih _ _ _ _ hdrop]
        have hq := numFull_drop E h128
        have hhead : chunkNF E ds0 0 =
            ⟨((E.take BLOCK_LEN).map (·.record_id)).headD 0, ds0 % 2 ^ 32,
              (E.take BLOCK_LEN).map (·.weight)⟩ := by
          simp only [chunkNF, sumSizes_zero, Nat.add_zero, groupAt_zero, groupIds]
        have hsize0 : sizeAt E 0 = compressed_block_size
            (num_bits_strictly_sorted
              (checkedSub1 (((E.take BLOCK_LEN).map (·.record_id)).headD 0))
              ((E.take BLOCK_LEN).map (·.record_id))) := by
          simp only [sizeAt, bitsAt, groupIds, groupAt_zero]
        have htail : (List.range (numFull (E.drop BLOCK_LEN))).map
              (chunkNF (E.drop BLOCK_LEN) (ds0 + sizeAt E 0)) =
            (List.range (numFull (E.drop BLOCK_LEN))).map (chunkNF E ds0 ∘ Nat.succ) := by
          apply List.map_congr_left
          intro j _
          simp only [Function.comp_apply]
          rw [chunkNF_succ]
        refine Prod.ext ?_ (Prod.ext ?_ ?_)
        · show chunks0 ++ [_] ++ _ = chunks0 ++ _
          rw [hq, List.range_succ_eq_map, List.map_cons, List.map_map, List.append_assoc,
            ← hhead, ← hsize0, htail]
          rfl
        · show ds0 + _ + _ = ds0 + _
          rw [hq, sumSizes_succ_shift, ← hsize0]
          omega
        · show rem0 ++ _ = rem0 ++ _
          have harith : BLOCK_LEN + BLOCK_LEN * numFull (E.drop BLOCK_LEN) =
              BLOCK_LEN * (numFull (E.drop BLOCK_LEN) + 1) := by ring
          rw [hq, List.drop_drop, harith]
      · push_neg at h128
        have htk : (E.take BLOCK_LEN).length ≠ BLOCK_LEN := by
          simp [List.length_take]
          omega
        have htk2 : E.take BLOCK_LEN = E := List.take_of_length_le (by omega)
        simp only [buildPass1, hne, Bool.false_eq_true, if_false, htk, if_true]
        rw [numFull_eq_zero E h128]
        simp [htk2, sumSizes_zero]

theorem encAt_length (E : List PostingElement0) (i : Nat) :
    (encAt E i).length = sizeAt E i := toBytes_length _ _

theorem sumSizes_succ (E : List PostingElement0) (i : Nat) :
    sumSizes E (i + 1) = sumSizes E i + sizeAt E i := by
  simp [sumSizes, List.range_succ]

theorem sumSizes_mono (E : List PostingElement0) {i j : Nat} (h : i ≤ j) :
    sumSizes E i ≤ sumSizes E j := by
  induction j with
  | zero => simp_all
  | succ j ih =>
    rcases Nat.lt_or_ge i (j + 1) with hlt | hge
    · exact le_trans (ih (by omega)) (by rw [sumSizes_succ]; omega)
    · have : i = j + 1 := by omega
      subst this
      exact le_rfl

theorem flatMap_range_encAt_length (E : List PostingElement0) (k : Nat) :
    ((List.range k).flatMap (encAt E)).length = sumSizes E k := by
  rw [List.length_flatMap]
  unfold sumSizes
  congr 1
  apply List.map_congr_left
  intro i _
  exact encAt_length E i

theorem mul_numFull_le (F : List PostingElement0) : BLOCK_LEN * numFull F ≤ F.length := by
  simp only [numFull]
  exact Nat.mul_div_le F.length BLOCK_LEN

theorem numFull_eq_of_le (F : List PostingElement0) {k : Nat} (hk : k ≤ numFull F)
    (hL : F.length ≤ BLOCK_LEN * k) : k = numFull F := by
  have h1 : BLOCK_LEN * numFull F ≤ F.length := mul_numFull_le F
  have h2 : BLOCK_LEN * k ≤ BLOCK_LEN * numFull F := Nat.mul_le_mul_left _ hk
  have h3 : BLOCK_LEN * k = BLOCK_LEN * numFull F := by omega
  exact Nat.eq_of_mul_eq_mul_left (by norm_num [BLOCK_LEN]) h3

/-- Slicing the concatenation of the per-index lists at the accumulated
lengths recovers the `i`-th list. -/
theorem flatMap_range_slice (f : Nat → List Nat) (g : Nat → Nat)
    (hg : ∀ i, (f i).length = g i) :
    ∀ (i q : Nat), i < q →
    ((((List.range q).flatMap f).drop (((List.range i).map g).sum)).take (g i)) = f i := by
  intro i
  induction i generalizing f g with
  | zero =>
    intro q hq
    obtain ⟨q', rfl⟩ : ∃ q', q = q' + 1 := ⟨q - 1, by omega⟩
    rw [show List.range (q' + 1) = 0 :: List.map Nat.succ (List.range q') from
      List.range_succ_eq_map q']
    rw [List.flatMap_cons, List.flatMap_map]
    simp only [List.range_zero, List.map_nil, List.sum_nil, List.drop_zero]
    exact List.take_left' (hg 0)
  | succ i ih =>
    intro q hq
    obtain ⟨q', rfl⟩ : ∃ q', q = q' + 1 := ⟨q - 1, by omega⟩
    rw [show List.range (q' + 1) = 0 :: List.map Nat.succ (List.range q') from
      List.range_succ_eq_map q']
    rw [List.flatMap_cons, List.flatMap_map]
    rw [show List.range (i + 1) = 0 :: List.map Nat.succ (List.range i) from
      List.range_succ_eq_map i]
    rw [List.map_cons, List.sum_cons, List.map_map]
    rw [List.drop_append_eq_append_drop]
    have hlen : (f 0).length = g 0 := hg 0
    have hnil : (f 0).drop (g 0 + ((List.range i).map (g ∘ Nat.succ)).sum) = [] :=
      List.drop_eq_nil_of_le (by omega)
    rw [hnil, List.nil_append, hlen]
    have harith : g 0 + ((List.range i).map (g ∘ Nat.succ)).sum - g 0 =
        ((List.range i).map (g ∘ Nat.succ)).sum := by omega
    rw [harith]
    exact ih (fun a => f (a + 1)) (fun a => g (a + 1)) (fun a => hg (a + 1)) q' (by omega)

theorem chunkAt_map_range (g : Nat → CompressedPostingChunk) (q i : Nat) (h : i < q) :
    chunkAt ((List.range q).map g) i = g i := by
  unfold chunkAt
  rw [List.getD_eq_getElem?_getD, List.getElem?_map, List.getElem?_range h]
  rfl

/-- What the second pass computes: writing each block's encoding into its
window of the zeroed buffer concatenates the encodings. -/
theorem buildPass2_spec (F : List PostingElement0)
    (hb : sumSizes F (numFull F) < 2 ^ 32) :
    ∀ (fuel k : Nat) (buf : List Nat), F.length - BLOCK_LEN * k ≤ fuel → k ≤ numFull F →
    buf = (List.range k).flatMap (encAt F) ++
      List.replicate (sumSizes F (numFull F) - sumSizes F k) 0 →
    buildPass2 fuel (F.drop (BLOCK_LEN * k)) k
      ((List.range (numFull F)).map (chunkNF F 0)) buf =
      (List.range (numFull F)).flatMap (encAt F) := by
  intro fuel
  induction fuel with
  | zero =>
    intro k buf hf hk hbuf
    have hkq : k = numFull F := numFull_eq_of_le F hk (by omega)
    subst hkq
    rw [hbuf]
    simp [buildPass2]
  | succ fuel ih =>
    intro k buf hf hk hbuf
    by_cases hkq : k < numFull F
    · have hfull : BLOCK_LEN * (k + 1) ≤ F.length := by
        have h1 : BLOCK_LEN * (k + 1) ≤ BLOCK_LEN * numFull F :=
          Nat.mul_le_mul_left BLOCK_LEN hkq
        have h2 := mul_numFull_le F
        omega
      have hguard : BLOCK_LEN ≤ (F.drop (BLOCK_LEN * k)).length := by
        rw [List.length_drop]
        have : BLOCK_LEN * (k + 1) = BLOCK_LEN * k + BLOCK_LEN := by ring
        omega
      have hbuflen : buf.length = sumSizes F (numFull F) := by
        rw [hbuf, List.length_append, flatMap_range_encAt_length, List.length_replicate]
        have := sumSizes_mono F hk
        omega
      have hchunk := chunkAt_map_range (chunkNF F 0) (numFull F) k hkq
      have hoffk : (chunkNF F 0 k).offset = sumSizes F k := by
        simp only [chunkNF, Nat.zero_add]
        exact Nat.mod_eq_of_lt (lt_of_le_of_lt (sumSizes_mono F (le_of_lt hkq)) hb)
      have hsz : get_chunk_size ((List.range (numFull F)).map (chunkNF F 0)) buf k =
          sizeAt F k := by
        unfold get_chunk_size
        rw [List.length_map, List.length_range]
        by_cases hk1 : k + 1 < numFull F
        · rw [if_pos hk1, chunkAt_map_range _ _ _ hk1, hchunk, hoffk]
          have hoffk1 : (chunkNF F 0 (k + 1)).offset = sumSizes F (k + 1) := by
            simp only [chunkNF, Nat.zero_add]
            exact Nat.mod_eq_of_lt (lt_of_le_of_lt (sumSizes_mono F (le_of_lt hk1)) hb)
          rw [hoffk1, sumSizes_succ]
          omega
        · rw [if_neg hk1, hchunk, hoffk, hbuflen]
          have hlast : numFull F = k + 1 := by omega
          rw [hlast, sumSizes_succ]
          omega
      have hbits : sizeAt F k * 8 / BLOCK_LEN = bitsAt F k := by
        simp only [sizeAt, compressed_block_size, BLOCK_LEN]
        omega
      have hover : overwriteAt buf (sumSizes F k) (encAt F k) =
          (List.range (k + 1)).flatMap (encAt F) ++
            List.replicate (sumSizes F (numFull F) - sumSizes F (k + 1)) 0 := by
        unfold overwriteAt
        rw [hbuf]
        have htake : ((List.range k).flatMap (encAt F) ++
            List.replicate (sumSizes F (numFull F) - sumSizes F k) 0).take (sumSizes F k) =
            (List.range k).flatMap (encAt F) := by
          rw [List.take_append_eq_append_take, List.take_of_length_le
            (le_of_eq (flatMap_range_encAt_length F k)), flatMap_range_encAt_length]
          simp
        have hdrop : ((List.range k).flatMap (encAt F) ++
            List.replicate (sumSizes F (numFull F) - sumSizes F k) 0).drop
              (sumSizes F k + (encAt F k).length) =
            List.replicate (sumSizes F (numFull F) - sumSizes F (k + 1)) 0 := by
          rw [List.drop_append_eq_append_drop, flatMap_range_encAt_length,
            List.drop_eq_nil_of_le (by rw [flatMap_range_encAt_length]; omega),
            List.nil_append, List.drop_replicate, encAt_length]
          have harith : sumSizes F (numFull F) - sumSizes F k -
              (sumSizes F k + sizeAt F k - sumSizes F k) =
              sumSizes F (numFull F) - sumSizes F (k + 1) := by
            rw [sumSizes_succ]
            omega
          rw [harith]
        rw [htake, hdrop, List.range_succ, List.flatMap_append, List.flatMap_cons,
          List.flatMap_nil, List.append_nil, List.append_assoc]
      have hstep : buildPass2 (fuel + 1) (F.drop (BLOCK_LEN * k)) k
          ((List.range (numFull F)).map (chunkNF F 0)) buf =
          buildPass2 fuel (F.drop (BLOCK_LEN * (k + 1))) (k + 1)
            ((List.range (numFull F)).map (chunkNF F 0))
            ((List.range (k + 1)).flatMap (encAt F) ++
              List.replicate (sumSizes F (numFull F) - sumSizes F (k + 1)) 0) := by
        simp only [buildPass2]
        rw [if_pos hguard, hchunk, hsz, hbits, hoffk]
        have hids : ((F.drop (BLOCK_LEN * k)).take BLOCK_LEN).map (·.record_id) =
            groupIds F k := rfl
        have hinit : (chunkNF F 0 k).initial = (groupIds F k).headD 0 := rfl
        rw [hids, hinit]
        have hcomp : compress_strictly_sorted (checkedSub1 ((groupIds F k).headD 0))
            (groupIds F k) (bitsAt F k) = encAt F k := rfl
        rw [hcomp, hover]
        have hdrop128 : (F.drop (BLOCK_LEN * k)).drop BLOCK_LEN =
            F.drop (BLOCK_LEN * (k + 1)) := by
          rw [List.drop_drop, Nat.mul_succ]
        rw [hdrop128]
      rw [hstep]
      refine ih (k + 1) _ ?_ hkq rfl
      have hms : BLOCK_LEN * (k + 1) = BLOCK_LEN * k + BLOCK_LEN := Nat.mul_succ BLOCK_LEN k
      have hpos : 0 < BLOCK_LEN := by norm_num [BLOCK_LEN]
      omega
    · have hkq2 : k = numFull F := by omega
      subst hkq2
      have hnot : ¬ BLOCK_LEN ≤ (F.drop (BLOCK_LEN * numFull F)).length := by
        rw [List.length_drop]
        have h1 := mul_numFull_le F
        have h2 : F.length < BLOCK_LEN * numFull F + BLOCK_LEN := by
          have := Nat.div_add_mod F.length BLOCK_LEN
          have hm : F.length % BLOCK_LEN < BLOCK_LEN :=
            Nat.mod_lt _ (by norm_num [BLOCK_LEN])
          simp only [numFull]
          omega
        omega
      simp only [buildPass2]
      rw [if_neg hnot, hbuf]
      simp

/-- Normal form of `buildSorted`: offsets unwrapped, id bytes concatenated. -/
def buildSortedNF (E : List PostingElement0) : PostingList :=
  { id_data := (List.range (numFull E)).flatMap (encAt E)
    chunks := (List.range (numFull E)).map (chunkNF E 0)
    remainders := E.drop (BLOCK_LEN * numFull E)
    last := E.getLast?.map fun e => ⟨e.record_id, e.weight, e.weight⟩ }

theorem buildSorted_eq_NF (E : List PostingElement0)
    (hb : sumSizes E (numFull E) < 2 ^ 32) :
    buildSorted E = buildSortedNF E := by
  unfold buildSorted
  rw [buildPass1_spec E.length E [] 0 [] le_rfl]
  simp only [List.nil_append, Nat.zero_add]
  unfold buildSortedNF
  simp only [PostingList.mk.injEq, and_true]
  have h2 := buildPass2_spec E hb E.length 0
    (List.replicate (sumSizes E (numFull E)) 0) (by omega) (Nat.zero_le _)
    (by simp [sumSizes_zero])
  rw [Nat.mul_zero, List.drop_zero] at h2
  exact h2

theorem foldr_max_le (ds : List Nat) (c : Nat) (h : ∀ d ∈ ds, Nat.size d ≤ c) :
    ds.foldr (fun d m => max (Nat.size d) m) 0 ≤ c := by
  induction ds with
  | nil => simp
  | cons a tl ih =>
    simp only [List.foldr]
    exact max_le (h a (by simp)) (ih fun d hd => h d (by simp [hd]))

theorem groupAt_mem (E : List PostingElement0) (i : Nat) :
    ∀ e ∈ groupAt E i, e ∈ E := by
  intro e he
  exact ((List.take_sublist _ _).trans (List.drop_sublist _ _)).mem he

theorem bitsAt_le_32 (E : List PostingElement0)
    (hid : ∀ e ∈ E, e.record_id < 2 ^ 32) (i : Nat) : bitsAt E i ≤ 32 := by
  unfold bitsAt num_bits_strictly_sorted
  apply foldr_max_le
  intro d hd
  obtain ⟨x, hx, hle⟩ := deltas_le_ids _ _ d hd
  apply Nat.size_le.mpr
  simp only [groupIds, List.mem_map] at hx
  obtain ⟨e, he, rfl⟩ := hx
  exact lt_of_le_of_lt hle (hid e (groupAt_mem E i e he))

theorem sizeAt_le_512 (E : List PostingElement0)
    (hid : ∀ e ∈ E, e.record_id < 2 ^ 32) (i : Nat) : sizeAt E i ≤ 512 := by
  have h := bitsAt_le_32 E hid i
  simp only [sizeAt, compressed_block_size, BLOCK_LEN]
  omega

theorem sumSizes_le_512_mul (E : List PostingElement0)
    (hid : ∀ e ∈ E, e.record_id < 2 ^ 32) (k : Nat) : sumSizes E k ≤ 512 * k := by
  induction k with
  | zero => simp [sumSizes_zero]
  | succ k ih =>
    rw [sumSizes_succ]
    have := sizeAt_le_512 E hid k
    omega

theorem sumSizes_lt_2_32 (E : List PostingElement0)
    (hid : ∀ e ∈ E, e.record_id < 2 ^ 32) (hlen : E.length < 2 ^ 30) :
    sumSizes E (numFull E) < 2 ^ 32 := by
  have h1 := sumSizes_le_512_mul E hid (numFull E)
  have h2 := mul_numFull_le E
  simp only [BLOCK_LEN] at h2
  omega

/-- Ids strictly increasing along the list. -/
def SortedIds (E : List PostingElement0) : Prop :=
  List.Pairwise (fun a b => a.record_id < b.record_id) E

theorem pairwise_incFrom (ids : List Nat) (h : List.Pairwise (· < ·) ids) (b : Nat)
    (hb : ∀ x, ids.head? = some x → b ≤ x) : IncFrom b ids := by
  induction ids generalizing b with
  | nil => trivial
  | cons x xs ih =>
    obtain ⟨hx, hxs⟩ := List.pairwise_cons.mp h
    refine ⟨hb x rfl, ?_⟩
    apply ih hxs
    intro y hy
    cases xs with
    | nil => simp at hy
    | cons z zs =>
      have hzy : z = y := Option.some.inj (by simpa using hy)
      subst hzy
      exact hx z (by simp)

theorem groupAt_length (E : List PostingElement0) (i : Nat) (hi : i < numFull E) :
    (groupAt E i).length = BLOCK_LEN := by
  have h1 : BLOCK_LEN * (i + 1) ≤ BLOCK_LEN * numFull E := Nat.mul_le_mul_left _ hi
  have h2 := mul_numFull_le E
  simp only [groupAt, List.length_take, List.length_drop]
  have hms : BLOCK_LEN * (i + 1) = BLOCK_LEN * i + BLOCK_LEN := Nat.mul_succ BLOCK_LEN i
  omega

theorem groupIds_pairwise (E : List PostingElement0) (hsort : SortedIds E) (i : Nat) :
    List.Pairwise (· < ·) (groupIds E i) := by
  unfold groupIds
  rw [List.pairwise_map]
  exact List.Pairwise.sublist ((List.take_sublist _ _).trans (List.drop_sublist _ _)) hsort

theorem baseOf_checkedSub1 (n : Nat) : baseOf (checkedSub1 n) = n := by
  unfold checkedSub1
  by_cases h : n = 0
  · simp [h, baseOf]
  · simp only [h, if_false, baseOf]
    omega

theorem get_chunk_size_NF (E : List PostingElement0)
    (hb : sumSizes E (numFull E) < 2 ^ 32) (data : List Nat)
    (hdata : data.length = sumSizes E (numFull E)) (i : Nat) (hi : i < numFull E) :
    get_chunk_size ((List.range (numFull E)).map (chunkNF E 0)) data i = sizeAt E i := by
  have hoff : ∀ j, j ≤ numFull E → j < numFull E →
      (chunkNF E 0 j).offset = sumSizes E j := by
    intro j _ hj
    simp only [chunkNF, Nat.zero_add]
    exact Nat.mod_eq_of_lt (lt_of_le_of_lt (sumSizes_mono E (le_of_lt hj)) hb)
  unfold get_chunk_size
  rw [List.length_map, List.length_range]
  by_cases hk1 : i + 1 < numFull E
  · rw [if_pos hk1, chunkAt_map_range _ _ _ hk1, chunkAt_map_range _ _ _ hi,
      hoff _ (by omega) hk1, hoff _ (by omega) hi, sumSizes_succ]
    omega
  · rw [if_neg hk1, chunkAt_map_range _ _ _ hi, hoff _ (by omega) hi, hdata]
    have hlast : numFull E = i + 1 := by omega
    rw [hlast, sumSizes_succ]
    omega

/-- Decompressing a block of the built list yields exactly the ids of its
group. -/
theorem decompress_chunk_NF (E : List PostingElement0) (hsort : SortedIds E)
    (hb : sumSizes E (numFull E) < 2 ^ 32) (i : Nat) (hi : i < numFull E) :
    (buildSortedNF E).decompress_chunk i = groupIds E i := by
  unfold PostingList.decompress_chunk
  show decompress_strictly_sorted _ _ _ = _
  have hlen : ((List.range (numFull E)).flatMap (encAt E)).length =
      sumSizes E (numFull E) := flatMap_range_encAt_length E (numFull E)
  have hsz : get_chunk_size (buildSortedNF E).chunks (buildSortedNF E).id_data i =
      sizeAt E i := get_chunk_size_NF E hb _ hlen i hi
  have hchunk : chunkAt (buildSortedNF E).chunks i = chunkNF E 0 i :=
    chunkAt_map_range _ _ _ hi
  have hoff : (chunkNF E 0 i).offset = sumSizes E i := by
    simp only [chunkNF, Nat.zero_add]
    exact Nat.mod_eq_of_lt (lt_of_le_of_lt (sumSizes_mono E (le_of_lt hi)) hb)
  rw [hsz, hchunk, hoff]
  have hslice : (((buildSortedNF E).id_data.drop (sumSizes E i)).take (sizeAt E i)) =
      encAt E i := by
    show ((((List.range (numFull E)).flatMap (encAt E)).drop (sumSizes E i)).take
      (sizeAt E i)) = encAt E i
    have := flatMap_range_slice (encAt E) (sizeAt E) (encAt_length E) i (numFull E) hi
    simpa [sumSizes] using this
  rw [hslice]
  have hbits : sizeAt E i * 8 / BLOCK_LEN = bitsAt E i := by
    simp only [sizeAt, compressed_block_size, BLOCK_LEN]
    omega
  rw [hbits]
  have hinit : (chunkNF E 0 i).initial = (groupIds E i).headD 0 := rfl
  rw [hinit]
  have hinc : IncFrom (baseOf (checkedSub1 ((groupIds E i).headD 0))) (groupIds E i) := by
    rw [baseOf_checkedSub1]
    apply pairwise_incFrom _ (groupIds_pairwise E hsort i)
    intro x hx
    have hd : (groupIds E i).headD 0 = x := by
      cases hg : groupIds E i with
      | nil => rw [hg] at hx; simp at hx
      | cons y ys =>
        rw [hg] at hx
        have : y = x := Option.some.inj (by simpa using hx)
        simp [List.headD, this]
    omega
  have hglen : (groupIds E i).length = BLOCK_LEN := by
    simp [groupIds, groupAt_length E i hi]
  exact decompress_compress _ _ hinc hglen

/-- All elements of a posting list in yield order: every block decoded, then
the remainders. -/
def allElems (l : PostingList) : List PostingElement :=
  ((List.range l.chunks.length).flatMap fun i =>
    List.zipWith mkElem (l.decompress_chunk i) (chunkAt l.chunks i).weights) ++
    l.remainders.map mkRemElem

theorem flatMap_range_groupAt (E : List PostingElement0) (q : Nat)
    (h : BLOCK_LEN * q ≤ E.length) :
    (List.range q).flatMap (groupAt E) = E.take (BLOCK_LEN * q) := by
  induction q generalizing E with
  | zero => simp
  | succ q ih =>
    rw [show List.range (q + 1) = 0 :: List.map Nat.succ (List.range q) from
      List.range_succ_eq_map q]
    rw [List.flatMap_cons, List.flatMap_map]
    have hshift : ((List.range q).flatMap fun a => groupAt E (Nat.succ a)) =
        (List.range q).flatMap (groupAt (E.drop BLOCK_LEN)) := by
      apply List.flatMap_congr
      intro a _
      exact groupAt_succ E a
    have hms : BLOCK_LEN * (q + 1) = BLOCK_LEN * q + BLOCK_LEN := Nat.mul_succ BLOCK_LEN q
    rw [hshift, ih (E.drop BLOCK_LEN) (by rw [List.length_drop]; omega)]
    rw [groupAt_zero, show BLOCK_LEN * (q + 1) = BLOCK_LEN + BLOCK_LEN * q by omega,
      List.take_add]

theorem allElems_NF (E : List PostingElement0) (hsort : SortedIds E)
    (hb : sumSizes E (numFull E) < 2 ^ 32) :
    allElems (buildSortedNF E) = E.map mkRemElem := by
  unfold allElems
  have hlen : (buildSortedNF E).chunks.length = numFull E := by
    simp [buildSortedNF]
  rw [hlen]
  have hmap : ((List.range (numFull E)).flatMap fun i =>
      List.zipWith mkElem ((buildSortedNF E).decompress_chunk i)
        (chunkAt (buildSortedNF E).chunks i).weights) =
      (List.range (numFull E)).flatMap fun i => (groupAt E i).map mkRemElem := by
    apply List.flatMap_congr
    intro i hi
    have hilt : i < numFull E := by simpa using hi
    rw [decompress_chunk_NF E hsort hb i hilt]
    have hw : (chunkAt (buildSortedNF E).chunks i).weights =
        (groupAt E i).map (·.weight) := by
      show (chunkAt ((List.range (numFull E)).map (chunkNF E 0)) i).weights = _
      rw [chunkAt_map_range _ _ _ hilt]
      rfl
    rw [hw]
    unfold groupIds
    rw [List.zipWith_map, List.zipWith_same]
    rfl
  rw [hmap]
  have hflat : ((List.range (numFull E)).flatMap fun i => (groupAt E i).map mkRemElem) =
      ((List.range (numFull E)).flatMap (groupAt E)).map mkRemElem := by
    rw [List.map_flatMap]
  rw [hflat, flatMap_range_groupAt E (numFull E) (mul_numFull_le E)]
  show _ ++ ((buildSortedNF E).remainders.map mkRemElem) = _
  have hrem : (buildSortedNF E).remainders = E.drop (BLOCK_LEN * numFull E) := rfl
  rw [hrem, ← List.map_append, List.take_append_drop]

theorem remaining_iter (l : PostingList) : remaining l.iter = allElems l := by
  unfold remaining remainingChunkPart allElems PostingList.iter
  have hs : ¬ (USIZE_MAX < BLOCK_LEN) := by norm_num [USIZE_MAX, BLOCK_LEN]
  simp only [hs, if_false, List.drop_zero, List.nil_append, Nat.add_zero, Nat.sub_zero]
  by_cases hc : 0 < l.chunks.length
  · rw [if_pos hc]
    congr 1
    rw [List.range_eq_range']
  · rw [if_neg hc]
    have h0 : l.chunks.length = 0 := by omega
    rw [h0]
    simp

theorem groupAt_append_of_le (E G : List PostingElement0) (i : Nat)
    (h : BLOCK_LEN * (i + 1) ≤ E.length) : groupAt (E ++ G) i = groupAt E i := by
  unfold groupAt
  have hms : BLOCK_LEN * (i + 1) = BLOCK_LEN * i + BLOCK_LEN := Nat.mul_succ BLOCK_LEN i
  rw [List.drop_append_eq_append_drop, List.take_append_eq_append_take]
  have h1 : BLOCK_LEN - (E.drop (BLOCK_LEN * i)).length = 0 := by
    rw [List.length_drop]
    omega
  rw [h1, List.take_zero, List.append_nil]

theorem sizeAt_append_of_le (E G : List PostingElement0) (i : Nat)
    (h : BLOCK_LEN * (i + 1) ≤ E.length) :
    sizeAt (E ++ G) i = sizeAt E i ∧ bitsAt (E ++ G) i = bitsAt E i ∧
    encAt (E ++ G) i = encAt E i ∧ groupIds (E ++ G) i = groupIds E i := by
  have hg := groupAt_append_of_le E G i h
  have hgi : groupIds (E ++ G) i = groupIds E i := by simp [groupIds, hg]
  have hbb : bitsAt (E ++ G) i = bitsAt E i := by simp [bitsAt, hgi]
  exact ⟨by simp [sizeAt, hbb], hbb, by simp [encAt, hgi, hbb], hgi⟩

theorem sumSizes_append_of_le (E G : List PostingElement0) (j : Nat)
    (h : BLOCK_LEN * j ≤ E.length) : sumSizes (E ++ G) j = sumSizes E j := by
  unfold sumSizes
  congr 1
  apply List.map_congr_left
  intro i hi
  have hij : i < j := by simpa using hi
  have h2 : BLOCK_LEN * (i + 1) ≤ BLOCK_LEN * j := Nat.mul_le_mul_left _ hij
  exact (sizeAt_append_of_le E G i (by omega)).1

theorem chunkNF_append_of_le (E G : List PostingElement0) (i : Nat)
    (h : BLOCK_LEN * (i + 1) ≤ E.length) : chunkNF (E ++ G) 0 i = chunkNF E 0 i := by
  obtain ⟨hs, hbb, he, hgi⟩ := sizeAt_append_of_le E G i h
  unfold chunkNF
  have hms : BLOCK_LEN * (i + 1) = BLOCK_LEN * i + BLOCK_LEN := Nat.mul_succ BLOCK_LEN i
  rw [hgi, groupAt_append_of_le E G i h, sumSizes_append_of_le E G i (by omega)]

theorem overwriteAt_append_replicate (A bytes : List Nat) :
    overwriteAt (A ++ List.replicate bytes.length 0) A.length bytes = A ++ bytes := by
  unfold overwriteAt
  rw [List.take_left]
  have h1 : (A ++ List.replicate bytes.length 0).length ≤ A.length + bytes.length := by
    simp
  rw [List.drop_eq_nil_of_le h1, List.append_nil]

theorem headD_record_id (G : List PostingElement0) :
    (G.headD ⟨0, 0⟩).record_id = (G.map (·.record_id)).headD 0 := by
  cases G <;> simp [List.headD]

/-- One appending `upsert` on the normal form extends the element list by one:
either only the remainder tail grows, or (at the `BLOCK_LEN`-th remainder) a
new block is emitted. -/
theorem upsertAppend_NF (E : List PostingElement0) (e : PostingElement0)
    (hb : sumSizes E (numFull E) < 2 ^ 32) :
    upsertAppend (buildSortedNF E) ⟨e.record_id, e.weight, e.weight⟩ =
      buildSortedNF (E ++ [e]) := by
  have hq0 := mul_numFull_le E
  have hqlt : E.length < BLOCK_LEN * numFull E + BLOCK_LEN := by
    have hdm := Nat.div_add_mod E.length BLOCK_LEN
    have hm : E.length % BLOCK_LEN < BLOCK_LEN := Nat.mod_lt _ (by norm_num [BLOCK_LEN])
    simp only [numFull]
    omega
  have hrem : (buildSortedNF E).remainders = E.drop (BLOCK_LEN * numFull E) := rfl
  have hdropE : (E ++ [e]).drop (BLOCK_LEN * numFull E) =
      E.drop (BLOCK_LEN * numFull E) ++ [e] := by
    rw [List.drop_append_eq_append_drop,
      show BLOCK_LEN * numFull E - E.length = 0 by omega, List.drop_zero]
  have hlast : (E ++ [e]).getLast?.map
      (fun x => (⟨x.record_id, x.weight, x.weight⟩ : PostingElement)) =
      some ⟨e.record_id, e.weight, e.weight⟩ := by
    rw [List.getLast?_append]
    rfl
  unfold upsertAppend
  simp only [hrem]
  by_cases hfull : (E.drop (BLOCK_LEN * numFull E) ++
      [(⟨e.record_id, e.weight⟩ : PostingElement0)]).length = BLOCK_LEN
  · -- a new block is emitted
    rw [if_pos hfull]
    have hremlen : E.length - BLOCK_LEN * numFull E + 1 = BLOCK_LEN := by
      have := hfull
      simp only [List.length_append, List.length_cons, List.length_nil,
        List.length_drop] at this
      omega
    have hqB : numFull (E ++ [e]) = numFull E + 1 := by
      simp only [numFull, List.length_append, List.length_cons, List.length_nil,
        BLOCK_LEN] at *
      omega
    have hgq : groupAt (E ++ [e]) (numFull E) =
        E.drop (BLOCK_LEN * numFull E) ++ [⟨e.record_id, e.weight⟩] := by
      unfold groupAt
      have he0 : (⟨e.record_id, e.weight⟩ : PostingElement0) = e := rfl
      rw [he0, hdropE]
      apply List.take_of_length_le
      simp only [List.length_append, List.length_cons, List.length_nil, List.length_drop]
      omega
    have hgidsq : groupIds (E ++ [e]) (numFull E) =
        (E.drop (BLOCK_LEN * numFull E) ++
          [(⟨e.record_id, e.weight⟩ : PostingElement0)]).map (·.record_id) := by
      rw [groupIds, hgq]
    have hinit : ((E.drop (BLOCK_LEN * numFull E) ++
        [(⟨e.record_id, e.weight⟩ : PostingElement0)]).headD ⟨0, 0⟩).record_id =
        (groupIds (E ++ [e]) (numFull E)).headD 0 := by
      rw [hgidsq, headD_record_id]
    have hsumq : sumSizes (E ++ [e]) (numFull E) = sumSizes E (numFull E) :=
      sumSizes_append_of_le E [e] (numFull E) hq0
    have hdatalen : (buildSortedNF E).id_data.length = sumSizes E (numFull E) :=
      flatMap_range_encAt_length E (numFull E)
    have hmod : (buildSortedNF E).id_data.length % 2 ^ 32 =
        (buildSortedNF E).id_data.length := by
      rw [hdatalen]
      exact Nat.mod_eq_of_lt hb
    have hNF : buildSortedNF (E ++ [e]) =
        ⟨(List.range (numFull (E ++ [e]))).flatMap (encAt (E ++ [e])),
          (List.range (numFull (E ++ [e]))).map (chunkNF (E ++ [e]) 0),
          (E ++ [e]).drop (BLOCK_LEN * numFull (E ++ [e])),
          (E ++ [e]).getLast?.map fun x => ⟨x.record_id, x.weight, x.weight⟩⟩ := rfl
    rw [hNF]
    simp only [PostingList.mk.injEq]
    refine ⟨?_, ?_, ?_, ?_⟩
    · -- id_data
      show overwriteAt ((buildSortedNF E).id_data ++ _) _ _ = _
      rw [hmod, hinit]
      have hcomp : compress_strictly_sorted
          (checkedSub1 ((groupIds (E ++ [e]) (numFull E)).headD 0))
          ((E.drop (BLOCK_LEN * numFull E) ++
            [(⟨e.record_id, e.weight⟩ : PostingElement0)]).map (·.record_id))
          (num_bits_strictly_sorted
            (checkedSub1 ((groupIds (E ++ [e]) (numFull E)).headD 0))
            ((E.drop (BLOCK_LEN * numFull E) ++
              [(⟨e.record_id, e.weight⟩ : PostingElement0)]).map (·.record_id))) =
          encAt (E ++ [e]) (numFull E) := by
        rw [← hgidsq]
        rfl
      rw [hcomp]
      have hsz : compressed_block_size
          (num_bits_strictly_sorted
            (checkedSub1 ((groupIds (E ++ [e]) (numFull E)).headD 0))
            ((E.drop (BLOCK_LEN * numFull E) ++
              [(⟨e.record_id, e.weight⟩ : PostingElement0)]).map (·.record_id))) =
          (encAt (E ++ [e]) (numFull E)).length := by
        rw [encAt_length, ← hgidsq]
        rfl
      rw [hsz, overwriteAt_append_replicate]
      show (List.range (numFull E)).flatMap (encAt E) ++ _ =
        (List.range (numFull (E ++ [e]))).flatMap (encAt (E ++ [e]))
      rw [hqB, List.range_succ, List.flatMap_append, List.flatMap_cons, List.flatMap_nil,
        List.append_nil]
      congr 1
      apply List.flatMap_congr
      intro i hi
      have hilt : i < numFull E := by simpa using hi
      have h2 : BLOCK_LEN * (i + 1) ≤ BLOCK_LEN * numFull E := Nat.mul_le_mul_left _ hilt
      exact ((sizeAt_append_of_le E [e] i (by omega)).2.2.1).symm
    · -- chunks
      show (List.range (numFull E)).map (chunkNF E 0) ++ [_] =
        (List.range (numFull (E ++ [e]))).map (chunkNF (E ++ [e]) 0)
      have hsplit : (List.range (numFull (E ++ [e]))).map (chunkNF (E ++ [e]) 0) =
          (List.range (numFull E)).map (chunkNF (E ++ [e]) 0) ++
            [chunkNF (E ++ [e]) 0 (numFull E)] := by
        rw [hqB, List.range_succ, List.map_append]
        rfl
      rw [hsplit]
      congr 1
      · apply List.map_congr_left
        intro i hi
        have hilt : i < numFull E := by simpa using hi
        have h2 : BLOCK_LEN * (i + 1) ≤ BLOCK_LEN * numFull E := Nat.mul_le_mul_left _ hilt
        exact (chunkNF_append_of_le E [e] i (by omega)).symm
      · congr 1
        unfold chunkNF
        simp only [CompressedPostingChunk.mk.injEq]
        refine ⟨hinit, ?_, ?_⟩
        · rw [hdatalen, hsumq, Nat.zero_add]
        · rw [hgq]
    · -- remainders
      show ([] : List PostingElement0) = (E ++ [e]).drop (BLOCK_LEN * numFull (E ++ [e]))
      rw [hqB]
      refine (List.drop_eq_nil_of_le ?_).symm
      simp only [List.length_append, List.length_cons, List.length_nil]
      have hms : BLOCK_LEN * (numFull E + 1) = BLOCK_LEN * numFull E + BLOCK_LEN :=
        Nat.mul_succ BLOCK_LEN (numFull E)
      omega
    · exact hlast.symm
  · -- only the remainder tail grows
    rw [if_neg hfull]
    have hremlen : E.length - BLOCK_LEN * numFull E + 1 ≠ BLOCK_LEN := by
      intro hcon
      apply hfull
      simp only [List.length_append, List.length_cons, List.length_nil, List.length_drop]
      omega
    have hqA : numFull (E ++ [e]) = numFull E := by
      simp only [numFull, List.length_append, List.length_cons, List.length_nil,
        BLOCK_LEN] at *
      omega
    have hNF : buildSortedNF (E ++ [e]) =
        ⟨(List.range (numFull (E ++ [e]))).flatMap (encAt (E ++ [e])),
          (List.range (numFull (E ++ [e]))).map (chunkNF (E ++ [e]) 0),
          (E ++ [e]).drop (BLOCK_LEN * numFull (E ++ [e])),
          (E ++ [e]).getLast?.map fun x => ⟨x.record_id, x.weight, x.weight⟩⟩ := rfl
    rw [hNF]
    simp only [PostingList.mk.injEq]
    refine ⟨?_, ?_, ?_, ?_⟩
    · show (List.range (numFull E)).flatMap (encAt E) =
        (List.range (numFull (E ++ [e]))).flatMap (encAt (E ++ [e]))
      rw [hqA]
      apply List.flatMap_congr
      intro i hi
      have hilt : i < numFull E := by simpa using hi
      have h2 : BLOCK_LEN * (i + 1) ≤ BLOCK_LEN * numFull E := Nat.mul_le_mul_left _ hilt
      exact ((sizeAt_append_of_le E [e] i (by omega)).2.2.1).symm
    · show (List.range (numFull E)).map (chunkNF E 0) =
        (List.range (numFull (E ++ [e]))).map (chunkNF (E ++ [e]) 0)
      rw [hqA]
      apply List.map_congr_left
      intro i hi
      have hilt : i < numFull E := by simpa using hi
      have h2 : BLOCK_LEN * (i + 1) ≤ BLOCK_LEN * numFull E := Nat.mul_le_mul_left _ hilt
      exact (chunkNF_append_of_le E [e] i (by omega)).symm
    · show E.drop (BLOCK_LEN * numFull E) ++ [(⟨e.record_id, e.weight⟩ : PostingElement0)] =
        (E ++ [e]).drop (BLOCK_LEN * numFull (E ++ [e]))
      rw [hqA, hdropE]
    · exact hlast.symm

/-! ## Iterator theory -/

/-- The elements of block `i`, as `try_for_each` yields them. -/
def chunkElems (l : PostingList) (i : Nat) : List PostingElement :=
  List.zipWith mkElem (l.decompress_chunk i) (chunkAt l.chunks i).weights

/-- The pending block-phase elements for given cursor components. -/
def pendingChunks (l : PostingList) (idx start : Nat) (scratch : List Nat) :
    List PostingElement :=
  if idx < l.chunks.length then
    (if start < BLOCK_LEN then
      List.zipWith mkElem (scratch.drop start) ((chunkAt l.chunks idx).weights.drop start)
    else []) ++
    (List.range' (idx + (if start < BLOCK_LEN then 1 else 0))
      (l.chunks.length - (idx + (if start < BLOCK_LEN then 1 else 0)))).flatMap
      (chunkElems l)
  else []

theorem remainingChunkPart_eq (it : PostingListIterator) :
    remainingChunkPart it = pendingChunks it.list it.decompressed_chunk_idx
      it.decompressed_chunk_start_index it.decompressed_chunk := rfl

theorem decompress_chunk_length (l : PostingList) (i : Nat) :
    (l.decompress_chunk i).length = BLOCK_LEN := by
  unfold PostingList.decompress_chunk decompress_strictly_sorted
  rw [undeltas_length, List.length_map, List.length_range]

theorem chunkAt_mem (chunks : List CompressedPostingChunk) (i : Nat)
    (h : i < chunks.length) : chunkAt chunks i ∈ chunks := by
  unfold chunkAt
  rw [List.getD_eq_getElem _ _ h]
  exact List.getElem_mem h

theorem chunkElems_length (l : PostingList) (i : Nat)
    (hw : ∀ c ∈ l.chunks, c.weights.length = BLOCK_LEN) (hi : i < l.chunks.length) :
    (chunkElems l i).length = BLOCK_LEN := by
  unfold chunkElems
  rw [List.length_zipWith, decompress_chunk_length, hw _ (chunkAt_mem _ _ hi)]
  simp

theorem visitFrom_le {σ R : Type} (f : σ → PostingElement → σ × CFlow R) (s : σ)
    (l : List PostingElement) : (visitFrom f s l).1 ≤ l.length := by
  induction l generalizing s with
  | nil => simp [visitFrom]
  | cons e rest ih =>
    simp only [visitFrom]
    cases hf : f s e with
    | mk s' flow =>
      cases flow with
      | brk r => simp
      | cont =>
        simp only [List.length_cons]
        have := ih s'
        omega

theorem visitFrom_none {σ R : Type} (f : σ → PostingElement → σ × CFlow R) (s : σ)
    (l : List PostingElement) (h : (visitFrom f s l).2.2 = none) :
    (visitFrom f s l).1 = l.length := by
  induction l generalizing s with
  | nil => simp [visitFrom]
  | cons e rest ih =>
    cases hf : f s e with
    | mk s' flow =>
      cases flow with
      | brk r =>
        simp only [visitFrom, hf] at h
        simp at h
      | cont =>
        simp only [visitFrom, hf] at h ⊢
        simp only [List.length_cons]
        rw [ih s' h]

theorem visitFrom_some_lt {σ R : Type} (f : σ → PostingElement → σ × CFlow R) (s : σ)
    (l : List PostingElement) (r : R) (h : (visitFrom f s l).2.2 = some r) :
    (visitFrom f s l).1 < l.length := by
  induction l generalizing s with
  | nil => simp [visitFrom] at h
  | cons e rest ih =>
    cases hf : f s e with
    | mk s' flow =>
      cases flow with
      | brk r' => simp [visitFrom, hf]
      | cont =>
        simp only [visitFrom, hf] at h ⊢
        simp only [List.length_cons]
        have := ih s' h
        omega

theorem visitFrom_append {σ R : Type} (f : σ → PostingElement → σ × CFlow R) (s : σ)
    (a b : List PostingElement) :
    visitFrom f s (a ++ b) =
      if (visitFrom f s a).2.2.isSome then visitFrom f s a
      else (a.length + (visitFrom f (visitFrom f s a).2.1 b).1,
        (visitFrom f (visitFrom f s a).2.1 b).2) := by
  induction a generalizing s with
  | nil => simp [visitFrom]
  | cons e rest ih =>
    cases hf : f s e with
    | mk s' flow =>
      cases flow with
      | brk r => simp [visitFrom, hf]
      | cont =>
        simp only [List.cons_append, visitFrom, hf, List.append_eq]
        rw [ih s']
        by_cases hb : (visitFrom f s' rest).2.2.isSome
        · simp [hb]
        · simp only [hb, if_false, List.length_cons, Bool.false_eq_true]
          refine Prod.ext ?_ rfl
          simp only
          omega

theorem drop_append_left {α : Type} (a b : List α) (n : Nat) :
    (a ++ b).drop (a.length + n) = b.drop n := by
  rw [List.drop_append_eq_append_drop,
    List.drop_eq_nil_of_le (Nat.le_add_right a.length n), List.nil_append,
    Nat.add_sub_cancel_left]

/-- Behaviour of the block-scanning loop of `try_for_each`: it feeds the
visitor the pending block elements in order, and the cursor afterwards points
exactly past the accepted ones. -/
theorem tfePhase2_spec {σ R : Type} (l : PostingList)
    (hw : ∀ c ∈ l.chunks, c.weights.length = BLOCK_LEN)
    (f : σ → PostingElement → σ × CFlow R) :
    ∀ (fuel idx start : Nat) (scratch : List Nat) (s : σ)
      (idx' start' : Nat) (scratch' : List Nat) (s' : σ) (oR : Option R),
    l.chunks.length - idx ≤ fuel → idx ≤ l.chunks.length →
    tfePhase2 l f fuel idx start scratch s = (idx', start', scratch', s', oR) →
    s' = (visitFrom f s ((List.range' idx (l.chunks.length - idx)).flatMap
        (chunkElems l))).2.1 ∧
    oR = (visitFrom f s ((List.range' idx (l.chunks.length - idx)).flatMap
        (chunkElems l))).2.2 ∧
    pendingChunks l idx' start' scratch' =
      ((List.range' idx (l.chunks.length - idx)).flatMap (chunkElems l)).drop
        (visitFrom f s ((List.range' idx (l.chunks.length - idx)).flatMap
          (chunkElems l))).1 ∧
    (scratch' = scratch ∨ scratch'.length = BLOCK_LEN) ∧
    idx ≤ idx' ∧ idx' ≤ l.chunks.length ∧
    (oR = none → idx' = l.chunks.length ∧ (start' = start ∨ BLOCK_LEN ≤ start')) ∧
    (oR.isSome → idx' < l.chunks.length) := by
  intro fuel
  induction fuel with
  | zero =>
    intro idx start scratch s idx' start' scratch' s' oR hf hle heq
    have hidx : idx = l.chunks.length := by omega
    subst hidx
    simp only [tfePhase2] at heq
    injection heq with h1 heq2
    injection heq2 with h2 heq3
    injection heq3 with h3 heq4
    injection heq4 with h4 h5
    subst h1
    subst h2
    subst h3
    subst h4
    subst h5
    refine ⟨?_, ?_, ?_, Or.inl rfl, le_rfl, le_rfl, fun _ => ⟨rfl, Or.inl rfl⟩, ?_⟩
    · simp [visitFrom]
    · simp [visitFrom]
    · simp [visitFrom, pendingChunks]
    · simp
  | succ fuel ih =>
    intro idx start scratch s idx' start' scratch' s' oR hf hle heq
    by_cases hidx : idx < l.chunks.length
    · have hL : l.chunks.length - idx = (l.chunks.length - (idx + 1)) + 1 := by omega
      have hsplit : (List.range' idx (l.chunks.length - idx)).flatMap (chunkElems l) =
          chunkElems l idx ++
            (List.range' (idx + 1) (l.chunks.length - (idx + 1))).flatMap (chunkElems l) := by
        rw [hL, List.range'_succ, List.flatMap_cons]
      have hclen : (chunkElems l idx).length = BLOCK_LEN := chunkElems_length l idx hw hidx
      simp only [tfePhase2] at heq
      rw [if_pos hidx] at heq
      have hce : List.zipWith mkElem (l.decompress_chunk idx) (chunkAt l.chunks idx).weights =
          chunkElems l idx := rfl
      rw [hce] at heq
      rw [hsplit, visitFrom_append]
      cases hv : (visitFrom f s (chunkElems l idx)).2.2 with
      | some r =>
        rw [hv] at heq
        simp only at heq
        injection heq with h1 heq2
        injection heq2 with h2 heq3
        injection heq3 with h3 heq4
        injection heq4 with h4 h5
        subst h1
        subst h2
        subst h3
        subst h4
        subst h5
        have hn : (visitFrom f s (chunkElems l idx)).1 < BLOCK_LEN := by
          rw [← hclen]
          exact visitFrom_some_lt f s _ r hv
        simp only [Option.isSome_some, eq_self_iff_true, if_true]
        refine ⟨trivial, hv.symm, ?_, Or.inr (decompress_chunk_length l idx), le_rfl,
          le_of_lt hidx, fun hco => absurd hco (by simp), fun _ => hidx⟩
        unfold pendingChunks
        rw [if_pos hidx, if_pos hn, if_pos hn]
        rw [List.drop_append_eq_append_drop]
        have hdz : (chunkElems l idx).drop (visitFrom f s (chunkElems l idx)).1 =
            List.zipWith mkElem
              ((l.decompress_chunk idx).drop (visitFrom f s (chunkElems l idx)).1)
              ((chunkAt l.chunks idx).weights.drop (visitFrom f s (chunkElems l idx)).1) := by
          unfold chunkElems
          rw [List.drop_zipWith]
        rw [← hdz, show (visitFrom f s (chunkElems l idx)).1 - (chunkElems l idx).length
          = 0 by omega, List.drop_zero]
      | none =>
        rw [hv] at heq
        simp only at heq
        have hn : (visitFrom f s (chunkElems l idx)).1 = BLOCK_LEN := by
          rw [← hclen]
          exact visitFrom_none f s _ hv
        obtain ⟨hs', hoR, hpend, hscr, hidx1, hidx2, hnone, hsome⟩ :=
          ih (idx + 1) (visitFrom f s (chunkElems l idx)).1 (l.decompress_chunk idx)
            (visitFrom f s (chunkElems l idx)).2.1 idx' start' scratch' s' oR
            (by omega) (by omega) heq
        simp only [Option.isSome_none, Bool.false_eq_true, if_false]
        refine ⟨hs', hoR, ?_, ?_, by omega, hidx2, ?_, hsome⟩
        · rw [hpend, ← hclen] at *
          rw [hpend]
          exact (drop_append_left (chunkElems l idx) _ _).symm
        · rcases hscr with h | h
          · exact Or.inr (h ▸ decompress_chunk_length l idx)
          · exact Or.inr h
        · intro ho
          obtain ⟨h1, h2⟩ := hnone ho
          refine ⟨h1, Or.inr ?_⟩
          rcases h2 with h | h
          · omega
          · exact h
    · have hidx2 : idx = l.chunks.length := by omega
      subst hidx2
      simp only [tfePhase2] at heq
      rw [if_neg hidx] at heq
      injection heq with h1 heq2
      injection heq2 with h2 heq3
      injection heq3 with h3 heq4
      injection heq4 with h4 h5
      subst h1
      subst h2
      subst h3
      subst h4
      subst h5
      refine ⟨?_, ?_, ?_, Or.inl rfl, le_rfl, le_rfl, fun _ => ⟨rfl, Or.inl rfl⟩, ?_⟩
      · simp [visitFrom]
      · simp [visitFrom]
      · simp [visitFrom, pendingChunks]
      · simp

/-- Well-formedness of an iterator state, established by `PostingList.iter`
and preserved by `try_for_each` (but deliberately not by `skip_to_end`, whose
claims are settled separately). -/
structure InvIter (it : PostingListIterator) : Prop where
  scratch_len : it.decompressed_chunk.length = BLOCK_LEN
  weights_len : ∀ c ∈ it.list.chunks, c.weights.length = BLOCK_LEN
  idx_le : it.decompressed_chunk_idx ≤ it.list.chunks.length
  start_end : it.list.chunks.length ≤ it.decompressed_chunk_idx →
    BLOCK_LEN ≤ it.decompressed_chunk_start_index
  lalala_zero : it.decompressed_chunk_idx < it.list.chunks.length → it.lalala = 0
  lalala_le : it.lalala ≤ it.list.remainders.length

/-- Behaviour of phases 1 and 2 of `try_for_each`. -/
theorem tfeChunks_spec {σ R : Type} (it : PostingListIterator)
    (f : σ → PostingElement → σ × CFlow R) (s : σ) (hInv : InvIter it)
    (it' : PostingListIterator) (s' : σ) (oR : Option R)
    (heq : tfeChunks it f s = (it', s', oR)) :
    s' = (visitFrom f s (remainingChunkPart it)).2.1 ∧
    oR = (visitFrom f s (remainingChunkPart it)).2.2 ∧
    remainingChunkPart it' =
      (remainingChunkPart it).drop (visitFrom f s (remainingChunkPart it)).1 ∧
    it'.list = it.list ∧ it'.lalala = it.lalala ∧
    it'.decompressed_chunk.length = BLOCK_LEN ∧
    it.decompressed_chunk_idx ≤ it'.decompressed_chunk_idx ∧
    it'.decompressed_chunk_idx ≤ it.list.chunks.length ∧
    (oR = none → it'.decompressed_chunk_idx = it.list.chunks.length ∧
      (it.list.chunks.length ≤ it.decompressed_chunk_idx → it' = it) ∧
      BLOCK_LEN ≤ it'.decompressed_chunk_start_index ∨
      oR = none ∧ it' = it ∧ it.list.chunks.length ≤ it.decompressed_chunk_idx) ∧
    (oR.isSome → it'.decompressed_chunk_idx < it.list.chunks.length ∨
      it.list.chunks.length ≤ it.decompressed_chunk_idx ∧ it' = it) := by
  unfold tfeChunks at heq
  by_cases hidx : it.decompressed_chunk_idx < it.list.chunks.length
  · rw [if_pos hidx] at heq
    by_cases hstart : it.decompressed_chunk_start_index < BLOCK_LEN
    · -- phase 1 really runs
      rw [if_pos hstart] at heq
      have hzlen : (List.zipWith mkElem
          (it.decompressed_chunk.drop it.decompressed_chunk_start_index)
          ((chunkAt it.list.chunks it.decompressed_chunk_idx).weights.drop
            it.decompressed_chunk_start_index)).length =
          BLOCK_LEN - it.decompressed_chunk_start_index := by
        rw [List.length_zipWith, List.length_drop, List.length_drop, hInv.scratch_len,
          hInv.weights_len _ (chunkAt_mem _ _ hidx)]
        simp
      have hpend : remainingChunkPart it =
          List.zipWith mkElem
            (it.decompressed_chunk.drop it.decompressed_chunk_start_index)
            ((chunkAt it.list.chunks it.decompressed_chunk_idx).weights.drop
              it.decompressed_chunk_start_index) ++
          (List.range' (it.decompressed_chunk_idx + 1)
            (it.list.chunks.length - (it.decompressed_chunk_idx + 1))).flatMap
            (chunkElems it.list) := by
        rw [remainingChunkPart_eq]
        unfold pendingChunks
        rw [if_pos hidx, if_pos hstart, if_pos hstart]
      rw [hpend, visitFrom_append]
      cases hv : (visitFrom f s (List.zipWith mkElem
          (it.decompressed_chunk.drop it.decompressed_chunk_start_index)
          ((chunkAt it.list.chunks it.decompressed_chunk_idx).weights.drop
            it.decompressed_chunk_start_index))).2.2 with
      | some r =>
        simp only at heq
        rw [hv] at heq
        simp only at heq
        injection heq with h1 heq2
        injection heq2 with h2 h3
        subst h1
        subst h2
        subst h3
        have hn := visitFrom_some_lt f s _ r hv
        rw [hzlen] at hn
        simp only [Option.isSome_some, eq_self_iff_true, if_true]
        refine ⟨trivial, hv.symm, ?_, by trivial, by trivial, hInv.scratch_len, le_rfl,
          le_of_lt hidx, fun hco => absurd hco (by simp),
          fun _ => Or.inl hidx⟩
        rw [remainingChunkPart_eq]
        unfold pendingChunks
        simp only
        rw [if_pos hidx, if_pos (show it.decompressed_chunk_start_index +
          (visitFrom f s _).1 < BLOCK_LEN by omega),
          if_pos (show it.decompressed_chunk_start_index +
            (visitFrom f s _).1 < BLOCK_LEN by omega)]
        rw [List.drop_append_eq_append_drop, hzlen,
          show (visitFrom f s _).1 - (BLOCK_LEN - it.decompressed_chunk_start_index) = 0
            by omega, List.drop_zero, List.drop_zipWith, List.drop_drop, List.drop_drop]
      | none =>
        simp only at heq
        rw [hv] at heq
        simp only at heq
        have hn := visitFrom_none f s _ hv
        rw [hzlen] at hn
        -- phase 2 runs next
        rcases hp2 : tfePhase2 it.list f it.list.chunks.length
            (it.decompressed_chunk_idx + 1)
            (it.decompressed_chunk_start_index + (visitFrom f s (List.zipWith mkElem
              (it.decompressed_chunk.drop it.decompressed_chunk_start_index)
              ((chunkAt it.list.chunks it.decompressed_chunk_idx).weights.drop
                it.decompressed_chunk_start_index))).1)
            it.decompressed_chunk
            (visitFrom f s (List.zipWith mkElem
              (it.decompressed_chunk.drop it.decompressed_chunk_start_index)
              ((chunkAt it.list.chunks it.decompressed_chunk_idx).weights.drop
                it.decompressed_chunk_start_index))).2.1 with
          ⟨i2, st2, sc2, s2, oR2⟩
        obtain ⟨hs2, hoR2, hpend2, hscr2, hi2a, hi2b, hnone2, hsome2⟩ :=
          tfePhase2_spec it.list hInv.weights_len f it.list.chunks.length
            (it.decompressed_chunk_idx + 1) _ it.decompressed_chunk _
            i2 st2 sc2 s2 oR2 (by omega) (by omega) hp2
        rw [hp2] at heq
        simp only at heq
        injection heq with h1 heq2
        injection heq2 with h2 h3
        subst h1
        subst h2
        subst h3
        simp only [Option.isSome_none, Bool.false_eq_true, if_false]
        refine ⟨hs2, hoR2, ?_, by trivial, by trivial, ?_,
          by show it.decompressed_chunk_idx ≤ i2
             omega,
          hi2b, ?_, ?_⟩
        · show pendingChunks it.list i2 st2 sc2 = _
          rw [hpend2, hzlen, ← hzlen, drop_append_left]
        · rcases hscr2 with h | h
          · rw [h]
            exact hInv.scratch_len
          · exact h
        · intro ho
          refine Or.inl ⟨?_, ?_, ?_⟩
          · exact (hnone2 ho).1
          · intro hcon
            exact absurd hcon (by omega)
          · show BLOCK_LEN ≤ st2
            rcases (hnone2 ho).2 with h | h
            · omega
            · exact h
        · intro ho
          exact Or.inl (hsome2 ho)
    · -- phase 1 skipped: scratch exhausted or sentinel
      rw [if_neg hstart] at heq
      simp only at heq
      rcases hp2 : tfePhase2 it.list f it.list.chunks.length it.decompressed_chunk_idx
          it.decompressed_chunk_start_index it.decompressed_chunk s with
        ⟨i2, st2, sc2, s2, oR2⟩
      obtain ⟨hs2, hoR2, hpend2, hscr2, hi2a, hi2b, hnone2, hsome2⟩ :=
        tfePhase2_spec it.list hInv.weights_len f it.list.chunks.length
          it.decompressed_chunk_idx _ it.decompressed_chunk _ i2 st2 sc2 s2 oR2
          (by omega) (by omega) hp2
      rw [hp2] at heq
      simp only at heq
      injection heq with h1 heq2
      injection heq2 with h2 h3
      subst h1
      subst h2
      subst h3
      have hpend : remainingChunkPart it =
          (List.range' it.decompressed_chunk_idx
            (it.list.chunks.length - it.decompressed_chunk_idx)).flatMap
            (chunkElems it.list) := by
        rw [remainingChunkPart_eq]
        unfold pendingChunks
        rw [if_pos hidx, if_neg hstart, if_neg hstart, List.nil_append, Nat.add_zero]
      rw [hpend]
      refine ⟨hs2, hoR2, ?_, by trivial, by trivial, ?_,
        by show it.decompressed_chunk_idx ≤ i2
           omega,
        hi2b, ?_, ?_⟩
      · show pendingChunks it.list i2 st2 sc2 = _
        exact hpend2
      · rcases hscr2 with h | h
        · rw [h]
          exact hInv.scratch_len
        · exact h
      · intro ho
        refine Or.inl ⟨(hnone2 ho).1, fun hcon => absurd hcon (by omega), ?_⟩
        show BLOCK_LEN ≤ st2
        rcases (hnone2 ho).2 with h | h
        · omega
        · exact h
      · intro ho
        exact Or.inl (hsome2 ho)
  · rw [if_neg hidx] at heq
    injection heq with h1 heq2
    injection heq2 with h2 h3
    subst h1
    subst h2
    subst h3
    have hpend : remainingChunkPart it = [] := by
      rw [remainingChunkPart_eq]
      unfold pendingChunks
      rw [if_neg hidx]
    refine ⟨?_, ?_, ?_, by trivial, by trivial, hInv.scratch_len, le_rfl, hInv.idx_le,
      fun _ => Or.inr ⟨rfl, rfl, by omega⟩, fun h => ?_⟩
    · rw [hpend]
      simp [visitFrom]
    · rw [hpend]
      simp [visitFrom]
    · rw [hpend]
      simp [visitFrom]
    · simp at h

/-- Central characterisation of `try_for_each`: it feeds the visitor exactly
the pending elements `remaining it`, threading the visitor state, and leaves
the cursor exactly past the accepted elements. -/
theorem tryForEach_spec {σ R : Type} (it : PostingListIterator)
    (f : σ → PostingElement → σ × CFlow R) (s : σ) (hInv : InvIter it)
    (it' : PostingListIterator) (s' : σ) (oR : Option R)
    (heq : tryForEach it f s = (it', s', oR)) :
    s' = (visitFrom f s (remaining it)).2.1 ∧
    oR = (visitFrom f s (remaining it)).2.2 ∧
    remaining it' = (remaining it).drop (visitFrom f s (remaining it)).1 ∧
    it'.list = it.list ∧ InvIter it' := by
  unfold tryForEach at heq
  rcases hc : tfeChunks it f s with ⟨it1, s1, oR1⟩
  obtain ⟨hs1, hoR1, hpend1, hlist1, hlala1, hscr1, hmono1, hle1, hnone1, hsome1⟩ :=
    tfeChunks_spec it f s hInv it1 s1 oR1 hc
  rw [hc] at heq
  simp only at heq
  have hremsplit : remaining it = remainingChunkPart it ++
      (it.list.remainders.drop it.lalala).map mkRemElem := rfl
  rw [hremsplit, visitFrom_append]
  cases hoR1' : oR1 with
  | some r =>
    rw [hoR1'] at heq
    simp only at heq
    injection heq with h1 heq2
    injection heq2 with h2 h3
    subst h1
    subst h2
    subst h3
    have hsome : (visitFrom f s (remainingChunkPart it)).2.2.isSome := by
      rw [← hoR1, hoR1']
      rfl
    rw [if_pos hsome]
    have hn := visitFrom_some_lt f s (remainingChunkPart it) r (by rw [← hoR1, hoR1'])
    rcases hsome1 (by rw [hoR1']; rfl) with hlt | ⟨hge, hit⟩
    · refine ⟨hs1, hoR1'.symm.trans hoR1, ?_, hlist1, ?_⟩
      · show remainingChunkPart it1 ++ (it1.list.remainders.drop it1.lalala).map mkRemElem = _
        rw [hlist1, hlala1, hpend1, List.drop_append_eq_append_drop,
          show (visitFrom f s (remainingChunkPart it)).1 - (remainingChunkPart it).length = 0
            by omega, List.drop_zero]
      · have hidxlt : it.decompressed_chunk_idx < it.list.chunks.length := by omega
        exact ⟨hscr1, by rw [hlist1]; exact hInv.weights_len, by rw [hlist1]; omega,
          by rw [hlist1]; omega, fun _ => by rw [hlala1]; exact hInv.lalala_zero hidxlt,
          by rw [hlist1, hlala1]; exact hInv.lalala_le⟩
    · refine ⟨hs1, hoR1'.symm.trans hoR1, ?_, hlist1, ?_⟩
      · show remainingChunkPart it1 ++ (it1.list.remainders.drop it1.lalala).map mkRemElem = _
        rw [hlist1, hlala1, hpend1, List.drop_append_eq_append_drop,
          show (visitFrom f s (remainingChunkPart it)).1 - (remainingChunkPart it).length = 0
            by omega, List.drop_zero]
      · rw [hit]
        exact hInv
  | none =>
    rw [hoR1'] at heq
    simp only at heq
    injection heq with h1 heq2
    injection heq2 with h2 h3
    subst h1
    subst h2
    subst h3
    have hnotsome : ¬ (visitFrom f s (remainingChunkPart it)).2.2.isSome := by
      rw [← hoR1, hoR1']
      simp
    rw [if_neg hnotsome]
    have hn : (visitFrom f s (remainingChunkPart it)).1 = (remainingChunkPart it).length :=
      visitFrom_none f s _ (by rw [← hoR1, hoR1'])
    have hidx1 : it1.decompressed_chunk_idx = it.list.chunks.length ∧
        BLOCK_LEN ≤ it1.decompressed_chunk_start_index := by
      rcases hnone1 (by rw [hoR1']) with ⟨ha, _, hb⟩ | ⟨_, hit, hge⟩
      · exact ⟨ha, hb⟩
      · rw [hit]
        exact ⟨by omega, hInv.start_end (by omega)⟩
    have hchunkempty : remainingChunkPart it1 = [] := by
      rw [remainingChunkPart_eq]
      unfold pendingChunks
      rw [if_neg (by rw [hlist1]; omega)]
    have hrem1 : (it1.list.remainders.drop it1.lalala).map mkRemElem =
        (it.list.remainders.drop it.lalala).map mkRemElem := by
      rw [hlist1, hlala1]
    refine ⟨?_, ?_, ?_, hlist1, ?_⟩
    · show (visitFrom f s1 ((it1.list.remainders.drop it1.lalala).map mkRemElem)).2.1 = _
      rw [hs1, hlist1, hlala1]
    · show (visitFrom f s1 ((it1.list.remainders.drop it1.lalala).map mkRemElem)).2.2 = _
      rw [hs1, hlist1, hlala1]
    · show remainingChunkPart _ ++ _ = _
      have hcp : remainingChunkPart { it1 with lalala := it1.lalala +
          (visitFrom f s1 ((it1.list.remainders.drop it1.lalala).map mkRemElem)).1 } =
          remainingChunkPart it1 := rfl
      rw [hcp, hchunkempty, List.nil_append, drop_append_left]
      show ((it1.list.remainders.drop _).map mkRemElem : List PostingElement) = _
      rw [hs1, hlist1, hlala1, ← List.map_drop, List.drop_drop]
    · have hvle := visitFrom_le f s1 ((it1.list.remainders.drop it1.lalala).map mkRemElem)
      rw [List.length_map, List.length_drop] at hvle
      refine ⟨hscr1, ?_, ?_, ?_, ?_, ?_⟩
      · show ∀ c ∈ it1.list.chunks, _
        rw [hlist1]
        exact hInv.weights_len
      · show it1.decompressed_chunk_idx ≤ it1.list.chunks.length
        rw [hlist1]
        omega
      · intro _
        show BLOCK_LEN ≤ it1.decompressed_chunk_start_index
        exact hidx1.2
      · intro hcon
        exfalso
        revert hcon
        show ¬ (it1.decompressed_chunk_idx < it1.list.chunks.length)
        rw [hlist1]
        omega
      · show it1.lalala + _ ≤ it1.list.remainders.length
        rw [hlist1, hlala1] at hvle ⊢
        have := hInv.lalala_le
        omega

/-- Chunk-header well-formedness of a posting list. -/
def WFChunks (l : PostingList) : Prop :=
  ∀ c ∈ l.chunks, c.weights.length = BLOCK_LEN

theorem invIter_iter (l : PostingList) (hw : WFChunks l) : InvIter l.iter := by
  refine ⟨by simp [PostingList.iter], hw, by simp [PostingList.iter], ?_, ?_, ?_⟩
  · intro _
    show BLOCK_LEN ≤ USIZE_MAX
    norm_num [BLOCK_LEN, USIZE_MAX]
  · intro _
    rfl
  · show 0 ≤ _
    exact Nat.zero_le _

theorem visitFrom_peek (L : List PostingElement) :
    visitFrom (fun _ e => ((), CFlow.brk e)) () L = (0, (), L.head?) := by
  cases L <;> rfl

/-- `peek` yields the head of the pending elements and does not consume. -/
theorem peek_spec (it : PostingListIterator) (hInv : InvIter it) :
    (it.peek).2 = (remaining it).head? ∧
    remaining (it.peek).1 = remaining it ∧
    InvIter (it.peek).1 ∧ (it.peek).1.list = it.list := by
  unfold PostingListIterator.peek
  rcases ht : tryForEach it (fun _ e => ((), CFlow.brk e)) () with ⟨it', s', oR⟩
  obtain ⟨hs, hoR, hrem, hlist, hinv⟩ := tryForEach_spec it _ () hInv it' s' oR ht
  rw [visitFrom_peek] at hoR hrem
  simp only at hoR hrem
  exact ⟨hoR, by rw [hrem, List.drop_zero], hinv, hlist⟩

theorem visitFrom_next (L : List PostingElement) :
    (visitFrom (fun s e =>
      match s with
      | (true, _) => ((false, some e), CFlow.cont)
      | (false, res) => ((false, res), CFlow.brk ()))
      ((true, none) : Bool × Option PostingElement) L).1 = min 1 L.length ∧
    (visitFrom (fun s e =>
      match s with
      | (true, _) => ((false, some e), CFlow.cont)
      | (false, res) => ((false, res), CFlow.brk ()))
      ((true, none) : Bool × Option PostingElement) L).2.1.2 = L.head? := by
  cases L with
  | nil => simp [visitFrom]
  | cons e rest =>
    cases rest with
    | nil => simp [visitFrom]
    | cons e2 rest2 => simp [visitFrom]

/-- `next` yields the head and consumes exactly it. -/
theorem next_spec (it : PostingListIterator) (hInv : InvIter it) :
    (it.next).2 = (remaining it).head? ∧
    remaining (it.next).1 = (remaining it).drop 1 ∧
    InvIter (it.next).1 ∧ (it.next).1.list = it.list := by
  unfold PostingListIterator.next
  rcases ht : tryForEach it _ ((true, none) : Bool × Option PostingElement) with ⟨it', s', oR⟩
  obtain ⟨hs, hoR, hrem, hlist, hinv⟩ := tryForEach_spec it _ _ hInv it' s' oR ht
  obtain ⟨hv1, hv2⟩ := visitFrom_next (remaining it)
  refine ⟨?_, ?_, hinv, hlist⟩
  · show s'.2 = _
    rw [hs, hv2]
  · rw [hrem, hv1]
    cases hL : remaining it with
    | nil => simp
    | cons a rest => simp

theorem visitFrom_collect (acc : List PostingElement) (L : List PostingElement) :
    visitFrom (fun acc e => (acc ++ [e], (CFlow.cont : CFlow Unit))) acc L =
      (L.length, acc ++ L, none) := by
  induction L generalizing acc with
  | nil => simp [visitFrom]
  | cons e rest ih =>
    simp [visitFrom, ih]

/-- Draining the iterator yields exactly the pending elements. -/
theorem collect_spec (it : PostingListIterator) (hInv : InvIter it) :
    (it.collect).2 = remaining it ∧
    remaining (it.collect).1 = [] ∧ InvIter (it.collect).1 ∧
    (it.collect).1.list = it.list := by
  unfold PostingListIterator.collect
  rcases ht : tryForEach it (fun acc e => (acc ++ [e], (CFlow.cont : CFlow Unit))) [] with
    ⟨it', s', oR⟩
  obtain ⟨hs, hoR, hrem, hlist, hinv⟩ := tryForEach_spec it _ _ hInv it' s' oR ht
  rw [visitFrom_collect] at hs hrem
  simp only at hs hrem
  refine ⟨by rw [hs, List.nil_append], ?_, hinv, hlist⟩
  rw [hrem, List.drop_eq_nil_of_le le_rfl]

theorem sum_map_const {α : Type} (L : List α) (g : α → Nat) (c : Nat)
    (h : ∀ x ∈ L, g x = c) : (L.map g).sum = L.length * c := by
  induction L with
  | nil => simp
  | cons a rest ih =>
    simp only [List.map_cons, List.sum_cons, List.length_cons, h a (by simp)]
    rw [ih (fun x hx => h x (by simp [hx]))]
    ring

theorem remaining_length (it : PostingListIterator) (hInv : InvIter it) :
    (remaining it).length =
      it.list.len - (it.decompressed_chunk_idx * BLOCK_LEN +
        (if it.decompressed_chunk_start_index < BLOCK_LEN
          then it.decompressed_chunk_start_index else 0) + it.lalala) ∧
    it.decompressed_chunk_idx * BLOCK_LEN +
      (if it.decompressed_chunk_start_index < BLOCK_LEN
        then it.decompressed_chunk_start_index else 0) + it.lalala ≤ it.list.len := by
  have hflat : ∀ (a n : Nat), n + a ≤ it.list.chunks.length →
      (((List.range' a n).flatMap (chunkElems it.list)).length = n * BLOCK_LEN) := by
    intro a n hn
    have hconst := sum_map_const (List.range' a n) (List.length ∘ chunkElems it.list)
      BLOCK_LEN (fun x hx => by
        have hxmem := List.mem_range'_1.mp hx
        exact chunkElems_length it.list x hInv.weights_len (by omega))
    rw [List.length_flatMap, hconst, List.length_range']
  have hrlen : ((it.list.remainders.drop it.lalala).map mkRemElem).length =
      it.list.remainders.length - it.lalala := by
    rw [List.length_map, List.length_drop]
  have hlala := hInv.lalala_le
  unfold remaining
  rw [List.length_append, hrlen]
  unfold PostingList.len
  rw [remainingChunkPart_eq]
  unfold pendingChunks
  by_cases hidx : it.decompressed_chunk_idx < it.list.chunks.length
  · have hlala0 := hInv.lalala_zero hidx
    rw [if_pos hidx]
    by_cases hstart : it.decompressed_chunk_start_index < BLOCK_LEN
    · rw [if_pos hstart, if_pos hstart, if_pos hstart]
      rw [List.length_append, List.length_zipWith, List.length_drop, List.length_drop,
        hInv.scratch_len, hInv.weights_len _ (chunkAt_mem _ _ hidx),
        hflat _ _ (by omega)]
      have hidx' : it.decompressed_chunk_idx + 1 ≤ it.list.chunks.length := hidx
      simp only [BLOCK_LEN] at *
      constructor <;> omega
    · rw [if_neg hstart, if_neg hstart, if_neg hstart]
      rw [List.nil_append, Nat.add_zero, hflat _ _ (by omega)]
      simp only [BLOCK_LEN] at *
      constructor <;> omega
  · rw [if_neg hidx]
    have hidxe : it.decompressed_chunk_idx = it.list.chunks.length := by
      have := hInv.idx_le
      omega
    have hstart : ¬ it.decompressed_chunk_start_index < BLOCK_LEN := by
      have := hInv.start_end (by omega)
      omega
    rw [if_neg hstart, List.length_nil, hidxe]
    omega

/-- `len_to_end` is exact: it returns the number of pending elements (and in
particular the subtraction does not underflow on well-formed states). -/
theorem lenToEnd_eq (it : PostingListIterator) (hInv : InvIter it) :
    it.len_to_end = some ((remaining it).length) := by
  obtain ⟨h1, h2⟩ := remaining_length it hInv
  unfold PostingListIterator.len_to_end
  rw [if_pos h2, h1]

/-- `skip_to` only consumes from the front: afterwards the pending elements
are a suffix of what they were (and the state stays well-formed). -/
theorem skipToFuel_drop : ∀ (fuel : Nat) (it : PostingListIterator) (q : Nat),
    InvIter it →
    ∃ m, remaining (skipToFuel fuel it q).1 = (remaining it).drop m ∧
      InvIter (skipToFuel fuel it q).1 ∧ (skipToFuel fuel it q).1.list = it.list := by
  intro fuel
  induction fuel with
  | zero =>
    intro it q hInv
    exact ⟨0, by simp [skipToFuel], by simp [skipToFuel, hInv], by simp [skipToFuel]⟩
  | succ fuel ih =>
    intro it q hInv
    obtain ⟨hpk, hpkrem, hpkinv, hpklist⟩ := peek_spec it hInv
    rcases hp : it.peek with ⟨it1, r⟩
    rw [hp] at hpk hpkrem hpkinv hpklist
    simp only at hpk hpkrem hpkinv hpklist
    simp only [skipToFuel, hp]
    cases r with
    | none =>
      dsimp only
      exact ⟨0, by rw [hpkrem, List.drop_zero], hpkinv, hpklist⟩
    | some e =>
      dsimp only
      by_cases h1 : e.record_id = q
      · rw [if_pos h1]
        exact ⟨0, by rw [hpkrem, List.drop_zero], hpkinv, hpklist⟩
      · rw [if_neg h1]
        by_cases h2 : q < e.record_id
        · rw [if_pos h2]
          exact ⟨0, by rw [hpkrem, List.drop_zero], hpkinv, hpklist⟩
        · rw [if_neg h2]
          obtain ⟨hnx, hnxrem, hnxinv, hnxlist⟩ := next_spec it1 hpkinv
          obtain ⟨m, hm, hminv, hmlist⟩ := ih it1.next.1 q hnxinv
          refine ⟨1 + m, ?_, hminv, by rw [hmlist, hnxlist, hpklist]⟩
          rw [hm, hnxrem, hpkrem, List.drop_drop]

/-- Full behaviour of the `skip_to` loop, under sortedness of the pending
ids: found exactly when present, and on a miss the cursor rests on the first
larger element. -/
theorem skipToFuel_find : ∀ (fuel : Nat) (it : PostingListIterator) (q : Nat),
    InvIter it →
    List.Pairwise (· < ·) ((remaining it).map (·.record_id)) →
    (remaining it).length < fuel →
    ((skipToFuel fuel it q).2 = none →
      (∀ e ∈ remaining it, e.record_id ≠ q) ∧
      (((skipToFuel fuel it q).1.peek).2 =
        (remaining it).find? (fun e => decide (q < e.record_id)))) ∧
    (∀ e, (skipToFuel fuel it q).2 = some e → e.record_id = q ∧ e ∈ remaining it) ∧
    ((∃ e ∈ remaining it, e.record_id = q) → ((skipToFuel fuel it q).2).isSome) := by
  intro fuel
  induction fuel with
  | zero =>
    intro it q hInv hsort hlen
    omega
  | succ fuel ih =>
    intro it q hInv hsort hlen
    obtain ⟨hpk, hpkrem, hpkinv, hpklist⟩ := peek_spec it hInv
    rcases hp : it.peek with ⟨it1, r⟩
    rw [hp] at hpk hpkrem hpkinv hpklist
    simp only at hpk hpkrem hpkinv hpklist
    simp only [skipToFuel, hp]
    cases r with
    | none =>
      dsimp only
      have hnil : remaining it = [] := by
        cases hr : remaining it with
        | nil => rfl
        | cons a rest => rw [hr] at hpk; simp at hpk
      refine ⟨fun _ => ⟨by rw [hnil]; simp, ?_⟩, by simp, ?_⟩
      · obtain ⟨hpk1, _, _, _⟩ := peek_spec it1 hpkinv
        rw [hpk1, hpkrem, hnil]
        rfl
      · rw [hnil]
        simp
    | some e =>
      dsimp only
      obtain ⟨rest, hr⟩ : ∃ rest, remaining it = e :: rest := by
        cases hrr : remaining it with
        | nil => rw [hrr] at hpk; simp at hpk
        | cons a tl =>
          rw [hrr] at hpk
          simp only [List.head?] at hpk
          exact ⟨tl, by rw [Option.some.inj hpk]⟩
      by_cases h1 : e.record_id = q
      · rw [if_pos h1]
        refine ⟨by simp, fun e' he' => ?_, fun _ => rfl⟩
        have : e' = e := (Option.some.inj he').symm
        subst this
        exact ⟨h1, by rw [hr]; simp⟩
      · rw [if_neg h1]
        by_cases h2 : q < e.record_id
        · rw [if_pos h2]
          have hgt : ∀ x ∈ remaining it, q < x.record_id := by
            intro x hx
            rw [hr] at hx hsort
            rcases List.mem_cons.mp hx with hxe | hxrest
            · subst hxe
              exact h2
            · rw [List.map_cons, List.pairwise_cons] at hsort
              have := hsort.1 x.record_id (List.mem_map_of_mem _ hxrest)
              omega
          refine ⟨fun _ => ⟨fun x hx => by have := hgt x hx; omega, ?_⟩, by simp, ?_⟩
          · obtain ⟨hpk1, _, _, _⟩ := peek_spec it1 hpkinv
            rw [hpk1, hpkrem, hr, List.find?_cons_of_pos _ (by simpa using h2)]
            rfl
          · intro ⟨x, hx, hxq⟩
            have := hgt x hx
            omega
        · rw [if_neg h2]
          have hlt : e.record_id < q := by omega
          obtain ⟨hnx, hnxrem, hnxinv, hnxlist⟩ := next_spec it1 hpkinv
          have hrem2 : remaining it1.next.1 = rest := by
            rw [hnxrem, hpkrem, hr]
            rfl
          have hsort2 : List.Pairwise (· < ·) ((remaining it1.next.1).map (·.record_id)) := by
            rw [hrem2]
            rw [hr, List.map_cons, List.pairwise_cons] at hsort
            exact hsort.2
          have hlen2 : (remaining it1.next.1).length < fuel := by
            rw [hrem2]
            rw [hr] at hlen
            simp only [List.length_cons] at hlen
            omega
          obtain ⟨ihnone, ihsome, ihex⟩ := ih it1.next.1 q hnxinv hsort2 hlen2
          rw [hrem2] at ihnone ihsome ihex
          refine ⟨fun hno => ?_, fun e' he' => ?_, fun hex => ?_⟩
          · obtain ⟨ha, hb⟩ := ihnone hno
            refine ⟨?_, ?_⟩
            · intro x hx
              rw [hr] at hx
              rcases List.mem_cons.mp hx with hxe | hxrest
              · subst hxe
                omega
              · exact ha x hxrest
            · rw [hb, hr, List.find?_cons_of_neg _ (by simpa using h2)]
          · obtain ⟨ha, hb⟩ := ihsome e' he'
            exact ⟨ha, by rw [hr]; exact List.mem_cons_of_mem _ hb⟩
          · obtain ⟨x, hx, hxq⟩ := hex
            rw [hr] at hx
            rcases List.mem_cons.mp hx with hxe | hxrest
            · subst hxe
              omega
            · exact ihex ⟨x, hxrest, hxq⟩

theorem WFChunks_NF (E : List PostingElement0) : WFChunks (buildSortedNF E) := by
  intro c hc
  have hc' : c ∈ (List.range (numFull E)).map (chunkNF E 0) := hc
  obtain ⟨i, hi, hci⟩ := List.mem_map.mp hc'
  have hilt : i < numFull E := List.mem_range.mp hi
  rw [← hci]
  show ((groupAt E i).map (·.weight)).length = BLOCK_LEN
  rw [List.length_map, groupAt_length E i hilt]

theorem buildSortedNF_nil : buildSortedNF [] = PostingList.default := rfl

theorem insertById_perm (e : PostingElement0) (L : List PostingElement0) :
    (insertById e L).Perm (e :: L) := by
  induction L with
  | nil => exact List.Perm.refl _
  | cons x xs ih =>
    unfold insertById
    by_cases h : e.record_id ≤ x.record_id
    · rw [if_pos h]
    · rw [if_neg h]
      exact (List.Perm.cons x ih).trans (List.Perm.swap e x xs)

theorem sortById_perm (L : List PostingElement0) : (sortById L).Perm L := by
  induction L with
  | nil => exact List.Perm.refl _
  | cons x xs ih =>
    exact (insertById_perm x (sortById xs)).trans (List.Perm.cons x ih)

theorem sortById_length (L : List PostingElement0) : (sortById L).length = L.length :=
  (sortById_perm L).length_eq

theorem insertById_sorted_le (e : PostingElement0) (L : List PostingElement0)
    (h : List.Pairwise (fun a b => a.record_id ≤ b.record_id) L) :
    List.Pairwise (fun a b => a.record_id ≤ b.record_id) (insertById e L) := by
  induction L with
  | nil => simp [insertById]
  | cons x xs ih =>
    obtain ⟨hx, hxs⟩ := List.pairwise_cons.mp h
    unfold insertById
    by_cases hle : e.record_id ≤ x.record_id
    · rw [if_pos hle]
      refine List.pairwise_cons.mpr ⟨?_, h⟩
      intro y hy
      rcases List.mem_cons.mp hy with hxy | hmem
      · subst hxy
        exact hle
      · exact le_trans hle (hx y hmem)
    · rw [if_neg hle]
      refine List.pairwise_cons.mpr ⟨?_, ih hxs⟩
      intro y hy
      have := (insertById_perm e xs).mem_iff.mp hy
      rcases List.mem_cons.mp this with hxy | hmem
      · subst hxy
        omega
      · exact hx y hmem

theorem sortById_sorted_le (L : List PostingElement0) :
    List.Pairwise (fun a b => a.record_id ≤ b.record_id) (sortById L) := by
  induction L with
  | nil => simp [sortById]
  | cons x xs ih => exact insertById_sorted_le x (sortById xs) ih

/-- With pairwise distinct ids the sort's output is strictly increasing. -/
theorem sortById_sorted_of_nodup (L : List PostingElement0)
    (h : (L.map (·.record_id)).Nodup) : SortedIds (sortById L) := by
  have hperm : ((sortById L).map (·.record_id)).Perm (L.map (·.record_id)) :=
    (sortById_perm L).map _
  have hnd : ((sortById L).map (·.record_id)).Nodup := hperm.nodup_iff.mpr h
  have hle := sortById_sorted_le L
  have hnd' : List.Pairwise (fun a b => a.record_id ≠ b.record_id) (sortById L) :=
    (List.pairwise_map).mp hnd
  exact (hle.and hnd').imp fun hab => lt_of_le_of_ne hab.1 hab.2

/-- `skip_to` (fuel instantiated) consumes a front segment. -/
theorem skip_to_drop (it : PostingListIterator) (q : Nat) (hInv : InvIter it) :
    ∃ m, remaining (it.skip_to q).1 = (remaining it).drop m ∧
      InvIter (it.skip_to q).1 ∧ (it.skip_to q).1.list = it.list :=
  skipToFuel_drop ((remaining it).length + 1) it q hInv

/-- `skip_to` (fuel instantiated): full find/miss behaviour on sorted ids. -/
theorem skip_to_find (it : PostingListIterator) (q : Nat) (hInv : InvIter it)
    (hsort : List.Pairwise (· < ·) ((remaining it).map (·.record_id))) :
    ((it.skip_to q).2 = none →
      (∀ e ∈ remaining it, e.record_id ≠ q) ∧
      (((it.skip_to q).1.peek).2 =
        (remaining it).find? (fun e => decide (q < e.record_id)))) ∧
    (∀ e, (it.skip_to q).2 = some e → e.record_id = q ∧ e ∈ remaining it) ∧
    ((∃ e ∈ remaining it, e.record_id = q) → ((it.skip_to q).2).isSome) :=
  skipToFuel_find ((remaining it).length + 1) it q hInv hsort (Nat.lt_succ_self _)

/-- Iterator states reachable from the fresh iterator over `l` by `next` and
`skip_to` calls, paired with the number of elements consumed so far (each
call consumes exactly the elements it moved past). -/
inductive Reaches (l : PostingList) : PostingListIterator → Nat → Prop where
  | init : Reaches l l.iter 0
  | step_next {it c} : Reaches l it c →
      Reaches l it.next.1 (c + ((remaining it).length - (remaining it.next.1).length))
  | step_skip {it c q} : Reaches l it c →
      Reaches l (it.skip_to q).1
        (c + ((remaining it).length - (remaining (it.skip_to q).1).length))

theorem reaches_spec (l : PostingList) (it : PostingListIterator) (c : Nat)
    (hw : WFChunks l) (h : Reaches l it c) :
    InvIter it ∧ (remaining it).length + c = (remaining l.iter).length := by
  induction h with
  | init => exact ⟨invIter_iter l hw, rfl⟩
  | step_next h ih =>
    obtain ⟨hInv, hlen⟩ := ih
    rename_i it0 c0
    obtain ⟨_, hrem, hinv', _⟩ := next_spec it0 hInv
    refine ⟨hinv', ?_⟩
    rw [hrem, List.length_drop] at *
    omega
  | step_skip h ih =>
    obtain ⟨hInv, hlen⟩ := ih
    rename_i it0 c0 q
    obtain ⟨m, hrem, hinv', _⟩ := skip_to_drop it0 q hInv
    refine ⟨hinv', ?_⟩
    rw [hrem, List.length_drop] at *
    omega

/-- Visitor that accepts `k` elements and breaks on the next one. -/
def breakAfter (k : Nat) : Nat → PostingElement → Nat × CFlow PostingElement :=
  fun c e => if c < k then (c + 1, CFlow.cont) else (c, CFlow.brk e)

theorem visitFrom_breakAfter (k : Nat) : ∀ (L : List PostingElement) (c : Nat), c ≤ k →
    visitFrom (breakAfter k) c L =
      (min (k - c) L.length, c + min (k - c) L.length, L[k - c]?) := by
  intro L
  induction L with
  | nil =>
    intro c _
    simp [visitFrom]
  | cons e rest ih =>
    intro c hc
    by_cases h : c < k
    · have hstep : breakAfter k c e = (c + 1, CFlow.cont) := by
        unfold breakAfter
        rw [if_pos h]
      unfold visitFrom
      rw [hstep]
      dsimp only
      rw [ih (c + 1) (by omega)]
      dsimp only
      have hkc : k - c = (k - (c + 1)) + 1 := by omega
      rw [hkc, List.getElem?_cons_succ, List.length_cons]
      have hmin : min (k - (c + 1) + 1) (rest.length + 1) = min (k - (c + 1)) rest.length + 1 := by
        omega
      rw [hmin]
      refine congrArg₂ Prod.mk (by omega) (congrArg₂ Prod.mk (by omega) rfl)
    · have hck : c = k := by omega
      subst hck
      have hstep : breakAfter c c e = (c, CFlow.brk e) := by
        unfold breakAfter
        rw [if_neg h]
      unfold visitFrom
      rw [hstep]
      simp

/-- `PostingList::upsert` as a transformer of the borrowed list (`&mut self`):
the list after the call, with `()` on success or the `unimplemented!` panic.
The panic is raised before any field assignment, so the list comes back
untouched. -/
def upsertMut (l : PostingList) (element : PostingElement) :
    PostingList × Except Unit Unit :=
  match l.last with
  | none => (upsertAppend l element, Except.ok ())
  | some last =>
    if last.record_id < element.record_id then (upsertAppend l element, Except.ok ())
    else (l, Except.error ())

/-- Upserting a strictly increasing tail onto a normal-form list succeeds and
keeps the normal form. -/
theorem upsertAll_NF (S : List PostingElement0) : ∀ E : List PostingElement0,
    (∀ x ∈ E ++ S, x.record_id < 2 ^ 32) → (E ++ S).length < 2 ^ 30 →
    List.Pairwise (fun a b => a.record_id < b.record_id) (E ++ S) →
    upsertAll (buildSortedNF E)
        (S.map fun e => (⟨e.record_id, e.weight, e.weight⟩ : PostingElement)) =
      Except.ok (buildSortedNF (E ++ S)) := by
  induction S with
  | nil =>
    intro E _ _ _
    simp [upsertAll]
  | cons e es ih =>
    intro E hid hlen hsort
    obtain ⟨hpE, hpS, hcross⟩ :=
      (List.pairwise_append.mp (by rwa [] at hsort) :
        _ ∧ _ ∧ ∀ a ∈ E, ∀ b ∈ e :: es, a.record_id < b.record_id)
    have hb : sumSizes E (numFull E) < 2 ^ 32 := by
      apply sumSizes_lt_2_32 E (fun x hx => hid x (List.mem_append_left _ hx))
      have : E.length ≤ (E ++ (e :: es)).length := by
        rw [List.length_append]
        omega
      omega
    have hlast : (buildSortedNF E).last =
        E.getLast?.map fun x => (⟨x.record_id, x.weight, x.weight⟩ : PostingElement) := rfl
    have hok : (buildSortedNF E).upsert ⟨e.record_id, e.weight, e.weight⟩ =
        Except.ok (upsertAppend (buildSortedNF E) ⟨e.record_id, e.weight, e.weight⟩) := by
      cases hE : E.getLast? with
      | none =>
        have hn : (buildSortedNF E).last = none := by
          rw [hlast, hE]
          rfl
        unfold PostingList.upsert
        rw [hn]
      | some g =>
        have hgmem : g ∈ E := by
          obtain ⟨hne, hgl⟩ := List.mem_getLast?_eq_getLast (Option.mem_def.mpr hE)
          rw [hgl]
          exact List.getLast_mem hne
        have hg : g.record_id < e.record_id :=
          hcross g hgmem e (List.mem_cons_self e es)
        have hs : (buildSortedNF E).last =
            some (⟨g.record_id, g.weight, g.weight⟩ : PostingElement) := by
          rw [hlast, hE]
          rfl
        unfold PostingList.upsert
        rw [hs]
        dsimp only
        rw [if_pos hg]
    rw [List.map_cons]
    unfold upsertAll
    rw [hok]
    dsimp only
    rw [upsertAppend_NF E e hb]
    have happ : (E ++ [e]) ++ es = E ++ e :: es := by
      rw [List.append_assoc, List.singleton_append]
    have := ih (E ++ [e]) (by rw [happ]; exact hid) (by rw [happ]; exact hlen)
      (by rw [happ]; exact hsort)
    rw [happ] at this
    exact this

theorem readBytes_exact (b rest : List Nat) (k : Nat) (hk : b.length = k) :
    readBytes k (b ++ rest) = some (b, rest) := by
  unfold readBytes
  rw [if_pos (by rw [List.length_append]; omega)]
  rw [← hk, List.take_left, List.drop_left]

theorem readU32_u32le (n : Nat) (rest : List Nat) (hn : n < 2 ^ 32) :
    readU32 (u32le n ++ rest) = some (n, rest) := by
  unfold readU32 u32le
  rw [readBytes_exact _ _ _ (toBytes_length _ 4)]
  show some (fromBytes (toBytes (n % 2 ^ 32) 4), rest) = _
  rw [Nat.mod_eq_of_lt hn, fromBytes_toBytes 4 n (by norm_num at hn ⊢; omega)]

theorem readWeights_spec (ws : List Nat) (rest : List Nat)
    (hw : ∀ w ∈ ws, w < 2 ^ 32) :
    readWeights ws.length (ws.flatMap u32le ++ rest) = some (ws, rest) := by
  induction ws with
  | nil => simp [readWeights]
  | cons w tl ih =>
    rw [List.length_cons, List.flatMap_cons, List.append_assoc]
    unfold readWeights
    rw [readU32_u32le w _ (hw w (by simp))]
    show (do
      let (tws, bs) ← readWeights tl.length (tl.flatMap u32le ++ rest)
      some (w :: tws, bs)) = _
    rw [ih (fun x hx => hw x (by simp [hx]))]
    rfl

theorem readChunks_spec (cs : List CompressedPostingChunk) (rest : List Nat)
    (hc : ∀ c ∈ cs, c.initial < 2 ^ 32 ∧ c.offset < 2 ^ 32 ∧
      c.weights.length = BLOCK_LEN ∧ ∀ w ∈ c.weights, w < 2 ^ 32) :
    readChunks cs.length
        ((cs.flatMap fun chunk =>
          u32le chunk.initial ++ u32le chunk.offset ++ chunk.weights.flatMap u32le) ++ rest) =
      some (cs, rest) := by
  induction cs with
  | nil => simp [readChunks]
  | cons c tl ih =>
    obtain ⟨h1, h2, h3, h4⟩ := hc c (by simp)
    rw [List.length_cons, List.flatMap_cons]
    unfold readChunks
    simp only [List.append_assoc]
    rw [readU32_u32le c.initial _ h1]
    show (do
      let (offset, bs) ← readU32 (u32le c.offset ++ (c.weights.flatMap u32le ++ _))
      let (weights, bs) ← readWeights BLOCK_LEN bs
      let (rcs, bs) ← readChunks tl.length bs
      some ((⟨c.initial, offset, weights⟩ : CompressedPostingChunk) :: rcs, bs)) = _
    rw [readU32_u32le c.offset _ h2]
    show (do
      let (weights, bs) ← readWeights BLOCK_LEN (c.weights.flatMap u32le ++ _)
      let (rcs, bs) ← readChunks tl.length bs
      some ((⟨c.initial, c.offset, weights⟩ : CompressedPostingChunk) :: rcs, bs)) = _
    rw [← h3, readWeights_spec c.weights _ h4]
    show (do
      let (rcs, bs) ← readChunks tl.length ((tl.flatMap fun chunk =>
        u32le chunk.initial ++ u32le chunk.offset ++ chunk.weights.flatMap u32le) ++ rest)
      some ((⟨c.initial, c.offset, c.weights⟩ : CompressedPostingChunk) :: rcs, bs)) = _
    rw [ih (fun x hx => hc x (by simp [hx]))]
    rfl

theorem readRemainders_spec (rs : List PostingElement0) (rest : List Nat)
    (hr : ∀ e ∈ rs, e.record_id < 2 ^ 32 ∧ e.weight < 2 ^ 32) :
    readRemainders rs.length
        ((rs.flatMap fun e => u32le e.record_id ++ u32le e.weight) ++ rest) =
      some (rs, rest) := by
  induction rs with
  | nil => simp [readRemainders]
  | cons e tl ih =>
    obtain ⟨h1, h2⟩ := hr e (by simp)
    rw [List.length_cons, List.flatMap_cons]
    unfold readRemainders
    simp only [List.append_assoc]
    rw [readU32_u32le e.record_id _ h1]
    show (do
      let (weight, bs) ← readU32 (u32le e.weight ++ _)
      let (rrs, bs) ← readRemainders tl.length bs
      some ((⟨e.record_id, weight⟩ : PostingElement0) :: rrs, bs)) = _
    rw [readU32_u32le e.weight _ h2]
    show (do
      let (rrs, bs) ← readRemainders tl.length ((tl.flatMap fun e =>
        u32le e.record_id ++ u32le e.weight) ++ rest)
      some ((⟨e.record_id, e.weight⟩ : PostingElement0) :: rrs, bs)) = _
    rw [ih (fun x hx => hr x (by simp [hx]))]
    rfl

/-- The cached-last value `load` reconstructs from the stored fields: the
final remainder if any, else the last element of the decoded terminal block,
else absent.  A list is internally consistent when its `last` field equals
this value. -/
def lastReconstruct (l : PostingList) : Option PostingElement :=
  match l.remainders.getLast? with
  | some e => some ⟨e.record_id, e.weight, e.weight⟩
  | none =>
    match l.chunks.getLast? with
    | some chunk =>
      let chunk_size := get_chunk_size l.chunks l.id_data (l.chunks.length - 1)
      let decompressed := decompress_strictly_sorted (checkedSub1 chunk.initial)
        ((l.id_data.drop chunk.offset).take chunk_size) (chunk_size * 8 / BLOCK_LEN)
      some ⟨decompressed.getD (BLOCK_LEN - 1) 0, chunk.weights.getD (BLOCK_LEN - 1) 0,
        chunk.weights.getD (BLOCK_LEN - 1) 0⟩
    | none => none


/-- `load ∘ save` restores every field of an internally consistent list whose
stored quantities fit their on-disk widths. -/
theorem load_save (l : PostingList)
    (h1 : l.id_data.length < 2 ^ 32) (h2 : l.chunks.length < 2 ^ 32)
    (h3 : l.remainders.length < 2 ^ 32)
    (hc : ∀ c ∈ l.chunks, c.initial < 2 ^ 32 ∧ c.offset < 2 ^ 32 ∧
      c.weights.length = BLOCK_LEN ∧ ∀ w ∈ c.weights, w < 2 ^ 32)
    (hr : ∀ e ∈ l.remainders, e.record_id < 2 ^ 32 ∧ e.weight < 2 ^ 32)
    (hlast : l.last = lastReconstruct l) :
    PostingList.load (PostingList.save l) = some l := by
  suffices h : PostingList.load (PostingList.save l) =
      some ⟨l.id_data, l.chunks, l.remainders, lastReconstruct l⟩ by
    rw [h, ← hlast]
  have hrm := readRemainders_spec l.remainders [] hr
  rw [List.append_nil] at hrm
  have hch := readChunks_spec l.chunks
    (l.remainders.flatMap fun e => u32le e.record_id ++ u32le e.weight) hc
  simp only [List.append_assoc] at hch
  unfold PostingList.load PostingList.save
  simp only [List.append_assoc]
  rw [readU32_u32le _ _ h1]
  simp only [Option.bind_eq_bind', Option.some_bind']
  rw [readU32_u32le _ _ h2]
  simp only [Option.bind_eq_bind', Option.some_bind']
  rw [readU32_u32le _ _ h3]
  simp only [Option.bind_eq_bind', Option.some_bind']
  rw [readBytes_exact l.id_data _ _ rfl]
  simp only [Option.bind_eq_bind', Option.some_bind']
  rw [hch]
  simp only [Option.bind_eq_bind', Option.some_bind']
  rw [hrm]
  simp only [Option.bind_eq_bind', Option.some_bind']
  rfl

/-! ## Claims -/

/-- C1: building a list from any sequence of (id, weight) pairs with pairwise
distinct ids and collecting its iterator yields exactly the input pairs
sorted by ascending id — a permutation of the input whose ids increase, with
each element's id and weight taken from its pair (`max_next_weight`
ignored). -/
theorem C1_builder_round_trip (S : List (Nat × Nat))
    (hnodup : (S.map Prod.fst).Nodup)
    (hids : ∀ p ∈ S, p.1 < 2 ^ 32) (hlen : S.length < 2 ^ 30) :
    ((PostingList.ofRecords S).to_vec.map fun e => (e.record_id, e.weight)).Perm S ∧
    List.Pairwise (· < ·) ((PostingList.ofRecords S).to_vec.map (·.record_id)) := by
  have hidsE : (S.map fun r => (⟨r.1, r.2⟩ : PostingElement0)).map (·.record_id) =
      S.map Prod.fst := by
    rw [List.map_map]
    rfl
  have hsort : SortedIds (sortById (S.map fun r => (⟨r.1, r.2⟩ : PostingElement0))) :=
    sortById_sorted_of_nodup _ (by rw [hidsE]; exact hnodup)
  have hperm := sortById_perm (S.map fun r => (⟨r.1, r.2⟩ : PostingElement0))
  have hb : sumSizes (sortById (S.map fun r => (⟨r.1, r.2⟩ : PostingElement0)))
      (numFull (sortById (S.map fun r => (⟨r.1, r.2⟩ : PostingElement0)))) < 2 ^ 32 := by
    apply sumSizes_lt_2_32
    · intro x hx
      have hx' := hperm.mem_iff.mp hx
      obtain ⟨p, hp, hpx⟩ := List.mem_map.mp hx'
      rw [← hpx]
      exact hids p hp
    · rw [sortById_length, List.length_map]
      exact hlen
  have hbuild : PostingList.ofRecords S =
      buildSortedNF (sortById (S.map fun r => (⟨r.1, r.2⟩ : PostingElement0))) := by
    unfold PostingList.ofRecords PostingBuilder.build
    exact buildSorted_eq_NF _ hb
  have hInv := invIter_iter _ (WFChunks_NF
    (sortById (S.map fun r => (⟨r.1, r.2⟩ : PostingElement0))))
  obtain ⟨hcol, _, _, _⟩ := collect_spec _ hInv
  rw [remaining_iter, allElems_NF _ hsort hb] at hcol
  have hvec : (PostingList.ofRecords S).to_vec =
      (sortById (S.map fun r => (⟨r.1, r.2⟩ : PostingElement0))).map mkRemElem := by
    unfold PostingList.to_vec
    rw [hbuild]
    exact hcol
  constructor
  · rw [hvec, List.map_map]
    have hmm : ((sortById (S.map fun r => (⟨r.1, r.2⟩ : PostingElement0))).map
        ((fun e => (e.record_id, e.weight)) ∘ mkRemElem)).Perm
        ((S.map fun r => (⟨r.1, r.2⟩ : PostingElement0)).map
          ((fun e => (e.record_id, e.weight)) ∘ mkRemElem)) := hperm.map _
    refine hmm.trans ?_
    rw [List.map_map]
    have : (((fun (e : PostingElement) => (e.record_id, e.weight)) ∘ mkRemElem) ∘
        fun (r : Nat × Nat) => (⟨r.1, r.2⟩ : PostingElement0)) = fun r => (r.1, r.2) := rfl
    rw [this]
    have hid : (S.map fun r => (r.1, r.2)) = S := by
      simp
    rw [hid]
  · rw [hvec, List.map_map]
    have : ((fun (e : PostingElement) => e.record_id) ∘ mkRemElem) =
        fun (e : PostingElement0) => e.record_id := rfl
    rw [this]
    rw [List.pairwise_map]
    exact hsort

/-- C2: starting from the empty list, upserting a strictly increasing
sequence succeeds and iterates back to exactly that sequence in order;
moreover block emission happens exactly per `BLOCK_LEN` accumulated
elements: after `n` upserts there are `n / BLOCK_LEN` blocks and
`n % BLOCK_LEN` remainders (at `n` = 127, 128, 129 this is scenario S3's
(0, 127), (1, 0), (1, 1)). -/
theorem C2_upsert_round_trip (S : List (Nat × Nat))
    (hsort : List.Pairwise (· < ·) (S.map Prod.fst))
    (hids : ∀ p ∈ S, p.1 < 2 ^ 32) (hlen : S.length < 2 ^ 30) :
    ∃ l' : PostingList,
      upsertAll PostingList.default
          (S.map fun p => (⟨p.1, p.2, p.2⟩ : PostingElement)) = Except.ok l' ∧
      (l'.to_vec.map fun e => (e.record_id, e.weight)) = S ∧
      l'.chunks.length = S.length / BLOCK_LEN ∧
      l'.remainders.length = S.length % BLOCK_LEN := by
  have hpair : List.Pairwise (fun a b => a.record_id < b.record_id)
      (S.map fun r => (⟨r.1, r.2⟩ : PostingElement0)) := by
    rw [List.pairwise_map]
    rw [List.pairwise_map] at hsort
    exact hsort
  have hidsE : ∀ x ∈ (S.map fun r => (⟨r.1, r.2⟩ : PostingElement0)), x.record_id < 2 ^ 32 := by
    intro x hx
    obtain ⟨p, hp, hpx⟩ := List.mem_map.mp hx
    rw [← hpx]
    exact hids p hp
  have hlenE : (S.map fun r => (⟨r.1, r.2⟩ : PostingElement0)).length < 2 ^ 30 := by
    rw [List.length_map]
    exact hlen
  have hall := upsertAll_NF (S.map fun r => (⟨r.1, r.2⟩ : PostingElement0)) []
    (by rw [List.nil_append]; exact hidsE) (by rw [List.nil_append]; exact hlenE)
    (by rw [List.nil_append]; exact hpair)
  rw [buildSortedNF_nil, List.nil_append, List.map_map] at hall
  have hfun : ((fun (e : PostingElement0) =>
      (⟨e.record_id, e.weight, e.weight⟩ : PostingElement)) ∘
      fun (r : Nat × Nat) => (⟨r.1, r.2⟩ : PostingElement0)) =
      fun p => (⟨p.1, p.2, p.2⟩ : PostingElement) := rfl
  rw [hfun] at hall
  refine ⟨_, hall, ?_, ?_, ?_⟩
  · have hb : sumSizes (S.map fun r => (⟨r.1, r.2⟩ : PostingElement0))
        (numFull (S.map fun r => (⟨r.1, r.2⟩ : PostingElement0))) < 2 ^ 32 :=
      sumSizes_lt_2_32 _ hidsE hlenE
    have hInv := invIter_iter _ (WFChunks_NF (S.map fun r => (⟨r.1, r.2⟩ : PostingElement0)))
    obtain ⟨hcol, _, _, _⟩ := collect_spec _ hInv
    rw [remaining_iter, allElems_NF _ hpair hb] at hcol
    unfold PostingList.to_vec
    rw [hcol, List.map_map, List.map_map]
    have : (((fun (e : PostingElement) => (e.record_id, e.weight)) ∘ mkRemElem) ∘
        fun (r : Nat × Nat) => (⟨r.1, r.2⟩ : PostingElement0)) = fun r => (r.1, r.2) := rfl
    rw [this]
    simp
  · show ((List.range (numFull (S.map fun r => (⟨r.1, r.2⟩ : PostingElement0)))).map
      (chunkNF (S.map fun r => (⟨r.1, r.2⟩ : PostingElement0)) 0)).length =
      S.length / BLOCK_LEN
    rw [List.length_map, List.length_range]
    unfold numFull
    rw [List.length_map]
  · show ((S.map fun r => (⟨r.1, r.2⟩ : PostingElement0)).drop
      (BLOCK_LEN * numFull (S.map fun r => (⟨r.1, r.2⟩ : PostingElement0)))).length =
      S.length % BLOCK_LEN
    have hnf : numFull (S.map fun r => (⟨r.1, r.2⟩ : PostingElement0)) =
        S.length / BLOCK_LEN := by
      unfold numFull
      rw [List.length_map]
    rw [List.length_drop, hnf, List.length_map]
    simp only [BLOCK_LEN]
    omega

/-- C3: saving and re-loading restores a valid list exactly — identical
id-byte buffer, block headers, remainder vector, and cached last element —
where validity means the stored quantities fit their on-disk 32-bit widths,
each header carries `BLOCK_LEN` weights, and the cached last element is the
one `load` reconstructs (final remainder / decoded terminal block /
absent). -/
theorem C3_save_load_identity (l : PostingList)
    (h1 : l.id_data.length < 2 ^ 32) (h2 : l.chunks.length < 2 ^ 32)
    (h3 : l.remainders.length < 2 ^ 32)
    (hc : ∀ c ∈ l.chunks, c.initial < 2 ^ 32 ∧ c.offset < 2 ^ 32 ∧
      c.weights.length = BLOCK_LEN ∧ ∀ w ∈ c.weights, w < 2 ^ 32)
    (hr : ∀ e ∈ l.remainders, e.record_id < 2 ^ 32 ∧ e.weight < 2 ^ 32)
    (hlast : l.last = lastReconstruct l) :
    PostingList.load (PostingList.save l) = some l :=
  load_save l h1 h2 h3 hc hr hlast

/-- C4: from any well-formed cursor position whose pending ids are sorted,
`skip_to q` answers `some e` with `e.record_id = q` exactly when an element
with id `q` is still pending; otherwise it answers `none` and leaves the
cursor so that `peek` yields the first pending element with id above `q`
(`none` when there is none). -/
theorem C4_skip_to (it : PostingListIterator) (q : Nat) (hInv : InvIter it)
    (hsort : List.Pairwise (· < ·) ((remaining it).map (·.record_id))) :
    (∀ e, (it.skip_to q).2 = some e → e.record_id = q ∧ e ∈ remaining it) ∧
    ((∃ e ∈ remaining it, e.record_id = q) → ((it.skip_to q).2).isSome) ∧
    ((it.skip_to q).2 = none →
      (∀ e ∈ remaining it, e.record_id ≠ q) ∧
      ((it.skip_to q).1.peek).2 =
        (remaining it).find? (fun e => decide (q < e.record_id))) := by
  obtain ⟨ha, hb, hc⟩ := skip_to_find it q hInv hsort
  exact ⟨hb, hc, ha⟩

/-- C5: an upsert whose id does not exceed the cached last element's id is
rejected with the unsupported-operation panic, raised before any field
assignment: the id bytes, headers, remainders and cached last element all
stay exactly as they were. -/
theorem C5_out_of_order_upsert (l : PostingList) (e : PostingElement)
    (last : PostingElement) (hl : l.last = some last)
    (hle : ¬ last.record_id < e.record_id) :
    l.upsert e = Except.error () ∧
    (upsertMut l e).2 = Except.error () ∧
    (upsertMut l e).1.id_data = l.id_data ∧
    (upsertMut l e).1.chunks = l.chunks ∧
    (upsertMut l e).1.remainders = l.remainders ∧
    (upsertMut l e).1.last = l.last := by
  unfold PostingList.upsert upsertMut
  rw [hl]
  dsimp only
  rw [if_neg hle, if_neg hle]
  exact ⟨rfl, rfl, rfl, rfl, rfl, hl⟩

/-- C6: refuted — `skip_to_end` pushes the block index past everything but
does not advance the remainder cursor, so on a list with a pending remainder
the very next `peek` still yields that remainder element rather than
`none`. -/
theorem C6_skip_to_end_peek_bug :
    (((PostingList.new_one 1 10).iter.skip_to_end).peek).2 =
      some ⟨1, 10, 10⟩ ∧
    ¬ (((PostingList.new_one 1 10).iter.skip_to_end).peek).2 = none := by
  constructor
  · rfl
  · decide

/-- C7: along any finite sequence of `next` and `skip_to` calls from a fresh
iterator, `len_to_end` equals the list's `len` minus the number of elements
consumed so far (which never exceeds `len`); in particular the fresh
iterator reports the full length. -/
theorem C7_len_to_end (l : PostingList) (hw : WFChunks l)
    (it : PostingListIterator) (c : Nat) (h : Reaches l it c) :
    it.len_to_end = some (l.len - c) ∧ c ≤ l.len ∧
    l.iter.len_to_end = some l.len := by
  have hInv0 := invIter_iter l hw
  have hfresh : (remaining l.iter).length = l.len := by
    obtain ⟨he, _⟩ := remaining_length l.iter hInv0
    rw [he]
    show l.len - (0 * BLOCK_LEN + (if USIZE_MAX < BLOCK_LEN then USIZE_MAX else 0) + 0) = l.len
    norm_num [USIZE_MAX, BLOCK_LEN]
  obtain ⟨hInv, hlen⟩ := reaches_spec l it c hw h
  rw [hfresh] at hlen
  refine ⟨?_, by omega, ?_⟩
  · rw [lenToEnd_eq it hInv]
    exact congrArg some (by omega)
  · rw [lenToEnd_eq l.iter hInv0, hfresh]

/-- C8: `try_for_each` short-circuits and keeps its position between
invocations: a visitor that accepts `k` elements and then breaks makes the
first invocation return the `(k+1)`-st pending element as its break value,
and a second invocation (here a full drain) yields exactly the pending
elements from that element on, in order. -/
theorem C8_try_for_each_resume (it : PostingListIterator) (k : Nat)
    (hInv : InvIter it) (hk : k < (remaining it).length) :
    (tryForEach it (breakAfter k) 0).2.2 = (remaining it)[k]? ∧
    ((tryForEach it (breakAfter k) 0).1.collect).2 = (remaining it).drop k := by
  rcases ht : tryForEach it (breakAfter k) 0 with ⟨it', s', oR⟩
  obtain ⟨hs, hoR, hrem, hlist, hinv⟩ := tryForEach_spec it _ 0 hInv it' s' oR ht
  have hv := visitFrom_breakAfter k (remaining it) 0 (Nat.zero_le k)
  rw [Nat.sub_zero] at hv
  have hmin : min k (remaining it).length = k := by omega
  rw [hv, hmin] at hs hoR hrem
  simp only at hs hoR hrem
  obtain ⟨hcol, _, _, _⟩ := collect_spec it' hinv
  exact ⟨hoR, by rw [hcol, hrem]⟩

/-- C9 (amended): with duplicate ids among the input elements the
debug-assertions build panics (`none`), but the release build silently keeps
every occurrence — the resulting list's length is the full input length, not
one element per distinct id. -/
theorem C9_duplicate_ids (E : List PostingElement0)
    (hdup : ¬ (E.map (·.record_id)).Nodup)
    (hids : ∀ x ∈ E, x.record_id < 2 ^ 32) (hlen : E.length < 2 ^ 30) :
    PostingBuilder.buildChecked E = none ∧
    (PostingBuilder.build E).len = E.length := by
  constructor
  · unfold PostingBuilder.buildChecked
    rw [if_neg]
    intro hnd
    exact hdup (((sortById_perm E).map (·.record_id)).nodup_iff.mp hnd)
  · have hids' : ∀ x ∈ sortById E, x.record_id < 2 ^ 32 := fun x hx =>
      hids x ((sortById_perm E).mem_iff.mp hx)
    have hlen' : (sortById E).length < 2 ^ 30 := by
      rw [sortById_length]
      exact hlen
    have hb := sumSizes_lt_2_32 (sortById E) hids' hlen'
    unfold PostingBuilder.build
    rw [buildSorted_eq_NF _ hb]
    unfold PostingList.len
    show ((List.range (numFull (sortById E))).map (chunkNF (sortById E) 0)).length *
      BLOCK_LEN + ((sortById E).drop (BLOCK_LEN * numFull (sortById E))).length = E.length
    rw [List.length_map, List.length_range, List.length_drop, sortById_length]
    have hmul := mul_numFull_le (sortById E)
    rw [sortById_length] at hmul
    have hnf : numFull (sortById E) = E.length / BLOCK_LEN := by
      unfold numFull
      rw [sortById_length]
    rw [hnf] at hmul ⊢
    simp only [BLOCK_LEN] at *
    omega

/-- C9, counterexample to the original release-behaviour wording: both
elements with the duplicated id 1 survive the release build — the list's
length is 2 and iteration yields both, not one element per distinct id. -/
theorem C9_counterexample :
    (PostingBuilder.build [⟨1, 10⟩, ⟨1, 20⟩]).len = 2 ∧
    (PostingBuilder.build [⟨1, 10⟩, ⟨1, 20⟩]).to_vec =
      [⟨1, 10, 10⟩, ⟨1, 20, 20⟩] ∧
    PostingBuilder.buildChecked [⟨1, 10⟩, ⟨1, 20⟩] = none := by
  refine ⟨rfl, rfl, ?_⟩
  decide

/-- C10 (amended): after `skip_to_end` on a fresh iterator, `len_to_end`
returns 0 exactly when the list has no remainders; with pending remainders
the elements-passed count exceeds the total and the `usize` subtraction
underflows (`none`, the debug-mode panic). -/
theorem C10_len_after_skip_to_end (l : PostingList) :
    (l.iter.skip_to_end).len_to_end =
      if l.remainders.length = 0 then some 0 else none := by
  unfold PostingList.iter PostingListIterator.skip_to_end PostingListIterator.len_to_end
  dsimp only
  have hin : (if USIZE_MAX < BLOCK_LEN then USIZE_MAX else 0) = 0 :=
    if_neg (by norm_num [USIZE_MAX, BLOCK_LEN])
  rw [hin]
  unfold PostingList.len
  by_cases hr : l.remainders.length = 0
  · have hcond : (l.chunks.length + l.remainders.length) * BLOCK_LEN + 0 + 0 ≤
        l.chunks.length * BLOCK_LEN + l.remainders.length := by
      rw [hr]
      simp only [BLOCK_LEN]
      omega
    rw [if_pos hr, if_pos hcond, hr]
    exact congrArg some (by simp only [BLOCK_LEN]; omega)
  · have hcond : ¬ ((l.chunks.length + l.remainders.length) * BLOCK_LEN + 0 + 0 ≤
        l.chunks.length * BLOCK_LEN + l.remainders.length) := by
      simp only [BLOCK_LEN]
      omega
    rw [if_neg hr, if_neg hcond]

/-- C10, counterexample to the claim as stated: on a one-element list (a
single remainder) `skip_to_end` followed by `len_to_end` does not return 0 —
the subtraction underflows. -/
theorem C10_counterexample :
    ¬ ((PostingList.new_one 1 10).iter.skip_to_end).len_to_end = some 0 ∧
    ((PostingList.new_one 1 10).iter.skip_to_end).len_to_end = none := by
  constructor
  · decide
  · rfl

/-- C1 exercised at a concrete unsorted input. -/
theorem C1_builder_round_trip_witness :
    (([(3, 30), (1, 10)] : List (Nat × Nat)).map Prod.fst).Nodup ∧
    (∀ p ∈ ([(3, 30), (1, 10)] : List (Nat × Nat)), p.1 < 2 ^ 32) ∧
    ([(3, 30), (1, 10)] : List (Nat × Nat)).length < 2 ^ 30 ∧
    (((PostingList.ofRecords [(3, 30), (1, 10)]).to_vec.map
        fun e => (e.record_id, e.weight)).Perm [(3, 30), (1, 10)] ∧
      List.Pairwise (· < ·)
        ((PostingList.ofRecords [(3, 30), (1, 10)]).to_vec.map (·.record_id))) :=
  ⟨by decide, by decide, by decide,
    C1_builder_round_trip [(3, 30), (1, 10)] (by decide) (by decide) (by decide)⟩

/-- C2 exercised at a concrete increasing input. -/
theorem C2_upsert_round_trip_witness :
    List.Pairwise (· < ·) (([(1, 10), (2, 20)] : List (Nat × Nat)).map Prod.fst) ∧
    (∃ l' : PostingList,
      upsertAll PostingList.default
          (([(1, 10), (2, 20)] : List (Nat × Nat)).map
            fun p => (⟨p.1, p.2, p.2⟩ : PostingElement)) = Except.ok l' ∧
      (l'.to_vec.map fun e => (e.record_id, e.weight)) =
        ([(1, 10), (2, 20)] : List (Nat × Nat)) ∧
      l'.chunks.length = ([(1, 10), (2, 20)] : List (Nat × Nat)).length / BLOCK_LEN ∧
      l'.remainders.length = ([(1, 10), (2, 20)] : List (Nat × Nat)).length % BLOCK_LEN) :=
  ⟨by decide, C2_upsert_round_trip [(1, 10), (2, 20)] (by decide) (by decide) (by decide)⟩

/-- C3 exercised at a concrete two-element list. -/
theorem C3_save_load_identity_witness :
    (PostingBuilder.build [⟨1, 10⟩, ⟨2, 20⟩]).id_data.length < 2 ^ 32 ∧
    (PostingBuilder.build [⟨1, 10⟩, ⟨2, 20⟩]).chunks.length < 2 ^ 32 ∧
    (PostingBuilder.build [⟨1, 10⟩, ⟨2, 20⟩]).remainders.length < 2 ^ 32 ∧
    (PostingBuilder.build [⟨1, 10⟩, ⟨2, 20⟩]).last =
      lastReconstruct (PostingBuilder.build [⟨1, 10⟩, ⟨2, 20⟩]) ∧
    PostingList.load (PostingList.save (PostingBuilder.build [⟨1, 10⟩, ⟨2, 20⟩])) =
      some (PostingBuilder.build [⟨1, 10⟩, ⟨2, 20⟩]) :=
  ⟨by decide, by decide, by decide, by decide,
    C3_save_load_identity (PostingBuilder.build [⟨1, 10⟩, ⟨2, 20⟩])
      (by decide) (by decide) (by decide) (by decide) (by decide) (by decide)⟩

/-- C4 exercised at a concrete list and query (present id). -/
theorem C4_skip_to_witness :
    InvIter (PostingBuilder.build [⟨1, 10⟩, ⟨3, 30⟩]).iter ∧
    List.Pairwise (· < ·)
      ((remaining (PostingBuilder.build [⟨1, 10⟩, ⟨3, 30⟩]).iter).map (·.record_id)) ∧
    (∀ e, ((PostingBuilder.build [⟨1, 10⟩, ⟨3, 30⟩]).iter.skip_to 3).2 = some e →
      e.record_id = 3 ∧ e ∈ remaining (PostingBuilder.build [⟨1, 10⟩, ⟨3, 30⟩]).iter) :=
  ⟨invIter_iter _ (by unfold WFChunks; decide), by decide,
    (C4_skip_to (PostingBuilder.build [⟨1, 10⟩, ⟨3, 30⟩]).iter 3
      (invIter_iter _ (by unfold WFChunks; decide)) (by decide)).1⟩

/-- C5 exercised at a concrete rejected upsert. -/
theorem C5_out_of_order_upsert_witness :
    (PostingBuilder.build [⟨2, 20⟩]).last = some ⟨2, 20, 20⟩ ∧
    ¬ (2 : Nat) < 1 ∧
    ((PostingBuilder.build [⟨2, 20⟩]).upsert ⟨1, 10, 10⟩ = Except.error () ∧
      (upsertMut (PostingBuilder.build [⟨2, 20⟩]) ⟨1, 10, 10⟩).2 = Except.error () ∧
      (upsertMut (PostingBuilder.build [⟨2, 20⟩]) ⟨1, 10, 10⟩).1.id_data =
        (PostingBuilder.build [⟨2, 20⟩]).id_data ∧
      (upsertMut (PostingBuilder.build [⟨2, 20⟩]) ⟨1, 10, 10⟩).1.chunks =
        (PostingBuilder.build [⟨2, 20⟩]).chunks ∧
      (upsertMut (PostingBuilder.build [⟨2, 20⟩]) ⟨1, 10, 10⟩).1.remainders =
        (PostingBuilder.build [⟨2, 20⟩]).remainders ∧
      (upsertMut (PostingBuilder.build [⟨2, 20⟩]) ⟨1, 10, 10⟩).1.last =
        (PostingBuilder.build [⟨2, 20⟩]).last) :=
  ⟨by decide, by decide,
    C5_out_of_order_upsert (PostingBuilder.build [⟨2, 20⟩]) ⟨1, 10, 10⟩ ⟨2, 20, 20⟩
      (by decide) (by decide)⟩

/-- C7 exercised at a fresh iterator over a concrete list. -/
theorem C7_len_to_end_witness :
    WFChunks (PostingBuilder.build [⟨1, 10⟩]) ∧
    ((PostingBuilder.build [⟨1, 10⟩]).iter.len_to_end =
        some ((PostingBuilder.build [⟨1, 10⟩]).len - 0) ∧
      0 ≤ (PostingBuilder.build [⟨1, 10⟩]).len ∧
      (PostingBuilder.build [⟨1, 10⟩]).iter.len_to_end =
        some (PostingBuilder.build [⟨1, 10⟩]).len) :=
  ⟨by unfold WFChunks; decide,
    C7_len_to_end (PostingBuilder.build [⟨1, 10⟩]) (by unfold WFChunks; decide) _ 0 Reaches.init⟩

/-- C8 exercised at a concrete list, breaking after one element. -/
theorem C8_try_for_each_resume_witness :
    InvIter (PostingBuilder.build [⟨1, 10⟩, ⟨2, 20⟩, ⟨3, 30⟩]).iter ∧
    1 < (remaining (PostingBuilder.build [⟨1, 10⟩, ⟨2, 20⟩, ⟨3, 30⟩]).iter).length ∧
    ((tryForEach (PostingBuilder.build [⟨1, 10⟩, ⟨2, 20⟩, ⟨3, 30⟩]).iter
        (breakAfter 1) 0).2.2 =
      (remaining (PostingBuilder.build [⟨1, 10⟩, ⟨2, 20⟩, ⟨3, 30⟩]).iter)[1]? ∧
      ((tryForEach (PostingBuilder.build [⟨1, 10⟩, ⟨2, 20⟩, ⟨3, 30⟩]).iter
          (breakAfter 1) 0).1.collect).2 =
        (remaining (PostingBuilder.build [⟨1, 10⟩, ⟨2, 20⟩, ⟨3, 30⟩]).iter).drop 1) :=
  ⟨invIter_iter _ (by unfold WFChunks; decide), by decide,
    C8_try_for_each_resume (PostingBuilder.build [⟨1, 10⟩, ⟨2, 20⟩, ⟨3, 30⟩]).iter 1
      (invIter_iter _ (by unfold WFChunks; decide)) (by decide)⟩

/-- C9 (amended) exercised at a concrete duplicated input. -/
theorem C9_duplicate_ids_witness :
    ¬ (([⟨1, 10⟩, ⟨1, 20⟩] : List PostingElement0).map (·.record_id)).Nodup ∧
    (PostingBuilder.buildChecked [⟨1, 10⟩, ⟨1, 20⟩] = none ∧
      (PostingBuilder.build [⟨1, 10⟩, ⟨1, 20⟩]).len =
        ([⟨1, 10⟩, ⟨1, 20⟩] : List PostingElement0).length) :=
  ⟨by decide,
    C9_duplicate_ids [⟨1, 10⟩, ⟨1, 20⟩] (by decide) (by decide) (by decide)⟩
